import Mathlib

/-!
Verification development for the `llamamlops` model registry
(`src/python/llamamlops/core/registry.py`).

The registry is shallowly embedded: the on-disk state (registry index file,
per-version artifact directories, per-version `metadata.yaml` records) becomes
an explicit `RegState`, and each public `ModelRegistry` method becomes a pure
function from states to states, returning the Python result (or the raised
exception, as `Except`) together with a trace of the file-system mutation
events it performs, in order.
-/

/--
Dynamic (Python) values that can flow through the metadata dictionaries of the
registry.  The source stores arbitrary Python objects in `ModelMetadata`
fields via `setattr` and in the open-ended `custom` dict; this type covers the
shapes the registry itself ever constructs (strings, ints, `None`, lists,
string-keyed dicts).  Floats are not modelled; no verified claim touches a
float value.
-/
inductive Value where
  | vStr (s : String)
  | vNat (n : Nat)
  | vNone
  | vList (vs : List Value)
  | vMap (kvs : List (String × Value))

/-- Lookup in an association list, first binding wins (Python dict lookup;
dict keys are unique, so lists built by `alInsert` never have duplicates). -/
def alGet {α β : Type} [DecidableEq α] : List (α × β) → α → Option β
  | [], _ => none
  | (k, b) :: rest, a => if a = k then some b else alGet rest a

/-- Python dict assignment `d[k] = b`: updates the binding in place if the key
is present (keeping its position, as Python dicts do), otherwise appends the
new binding at the end (Python dict insertion order). -/
def alInsert {α β : Type} [DecidableEq α] : List (α × β) → α → β → List (α × β)
  | [], a, b => [(a, b)]
  | (k, c) :: rest, a, b =>
    if a = k then (k, b) :: rest else (k, c) :: alInsert rest a b

/-- Python dict deletion `del d[k]`.  Association lists here model Python
dicts, whose keys are unique; removing every binding of the key is
extensionally the same as removing the unique one and gives unconditional
lookup lemmas. -/
def alErase {α β : Type} [DecidableEq α] : List (α × β) → α → List (α × β)
  | [], _ => []
  | (k, c) :: rest, a =>
    if k = a then alErase rest a else (k, c) :: alErase rest a

/--
The `ModelMetadata` dataclass of the source, with every dataclass field held
as a dynamic `Value` (Python fields are untyped at runtime and `setattr` can
store any value in any of them).  `methodOverrides` models the instance
`__dict__` entries created when `setattr` is called with the name of a class
attribute that is not a dataclass field (the methods `to_dict` / `from_dict`):
the instance attribute then shadows the method.
-/
structure ModelMetadata where
  name : Value
  version : Value
  description : Value
  framework : Value
  task_type : Value
  tags : Value
  author : Value
  email : Value
  metrics : Value
  training_dataset : Value
  training_params : Value
  created_at : Value
  updated_at : Value
  path : Value
  size_bytes : Value
  status : Value
  deployment_env : Value
  deployment_url : Value
  custom : Value
  methodOverrides : List (String × Value)

/-- The dataclass constructor defaults of `ModelMetadata`, as called by
`register_model` (name, version, description supplied; `created_at` is the
`datetime.now().isoformat()` string, passed in as `now`). -/
def mkDefault (nm ver desc now : String) : ModelMetadata where
  name := Value.vStr nm
  version := Value.vStr ver
  description := Value.vStr desc
  framework := Value.vStr ("unknown")
  task_type := Value.vStr ("unknown")
  tags := Value.vList []
  author := Value.vStr ("")
  email := Value.vNone
  metrics := Value.vMap []
  training_dataset := Value.vNone
  training_params := Value.vMap []
  created_at := Value.vStr now
  updated_at := Value.vNone
  path := Value.vNone
  size_bytes := Value.vNone
  status := Value.vStr ("registered")
  deployment_env := Value.vNone
  deployment_url := Value.vNone
  custom := Value.vMap []
  methodOverrides := []

/-- The dataclass field names of `ModelMetadata`, in declaration order. -/
def mmFieldNames : List String :=
  ["name", "version", "description", "framework", "task_type", "tags",
   "author", "email", "metrics", "training_dataset", "training_params",
   "created_at", "updated_at", "path", "size_bytes", "status",
   "deployment_env", "deployment_url", "custom"]

/-- The methods defined in the `ModelMetadata` class body. -/
def mmMethodNames : List String := ["to_dict", "from_dict"]

/-- `hasattr(model_metadata, k)`: true for every dataclass field and also for
the class's methods (which is the point of claim C10).  Attributes inherited
from `object` (dunders) are omitted; no claim mentions them. -/
def hasattrMM (k : String) : Bool :=
  mmFieldNames.contains k || mmMethodNames.contains k

/-- `setattr(model_metadata, k, v)`: stores into the matching dataclass field,
or — for any other attribute name (the class methods) — creates an instance
`__dict__` entry shadowing the class attribute. -/
def setattrMM (m : ModelMetadata) (k : String) (v : Value) : ModelMetadata :=
  if k = "name" then { m with name := v }
  else if k = "version" then { m with version := v }
  else if k = "description" then { m with description := v }
  else if k = "framework" then { m with framework := v }
  else if k = "task_type" then { m with task_type := v }
  else if k = "tags" then { m with tags := v }
  else if k = "author" then { m with author := v }
  else if k = "email" then { m with email := v }
  else if k = "metrics" then { m with metrics := v }
  else if k = "training_dataset" then { m with training_dataset := v }
  else if k = "training_params" then { m with training_params := v }
  else if k = "created_at" then { m with created_at := v }
  else if k = "updated_at" then { m with updated_at := v }
  else if k = "path" then { m with path := v }
  else if k = "size_bytes" then { m with size_bytes := v }
  else if k = "status" then { m with status := v }
  else if k = "deployment_env" then { m with deployment_env := v }
  else if k = "deployment_url" then { m with deployment_url := v }
  else if k = "custom" then { m with custom := v }
  else { m with methodOverrides := alInsert m.methodOverrides k v }

/-- One iteration of the metadata-merge loop shared (verbatim, twice) by
`register_model` and `update_model_metadata`:
`if hasattr(m, key): setattr(m, key, value) else: m.custom[key] = value`.
The `custom[key] = value` item assignment raises `TypeError` when `custom` is
not a dict (possible only if a previous update replaced the `custom`
attribute), modelled as the error case. -/
def applyOne (m : ModelMetadata) (kv : String × Value) :
    Except String ModelMetadata :=
  if hasattrMM kv.fst then Except.ok (setattrMM m kv.fst kv.snd)
  else
    match m.custom with
    | Value.vMap kvs =>
      Except.ok { m with custom := Value.vMap (alInsert kvs kv.fst kv.snd) }
    | _ => Except.error ("TypeError: custom is not a dict")

/-- The whole merge loop `for key, value in metadata.items(): ...`, iterating
in dict insertion order. -/
def applyUpdates (m : ModelMetadata) :
    List (String × Value) → Except String ModelMetadata
  | [] => Except.ok m
  | kv :: rest =>
    match applyOne m kv with
    | Except.ok m1 => applyUpdates m1 rest
    | Except.error e => Except.error e

/-- An entry of the registry index file, as written by
`ModelRegistry._update_index`: the four denormalized metadata fields. -/
structure IndexEntry where
  created_at : Value
  description : Value
  path : Value
  status : Value

/-- The projection `_update_index` takes from a `ModelMetadata`. -/
def entryOf (m : ModelMetadata) : IndexEntry where
  created_at := m.created_at
  description := m.description
  path := m.path
  status := m.status

/-- The registry index: model name to version to `IndexEntry`, in Python dict
insertion order at both levels (the JSON round-trip of `registry_index.json`
preserves object member order). -/
abbrev Index := List (String × List (String × IndexEntry))

/-- The state of the `metadata.yaml` file of one model version: absent, left
truncated/garbled by a failed write (`open(..., 'w')` truncates before
`yaml.dump` runs), or storing a serialized record.  The YAML codec
(`yaml.dump(m.to_dict())` / `ModelMetadata.from_dict(yaml.safe_load(...))`)
round-trips the record; `asdict` serializes only dataclass fields, so
instance attributes shadowing methods are dropped by `storedOf`. -/
inductive MetaFile where
  | absent
  | halfWritten
  | stored (m : ModelMetadata)

/-- What `yaml.dump(m.to_dict())` persists: `dataclasses.asdict` walks only
the dataclass fields, so instance `__dict__` entries shadowing methods do not
reach the file. -/
def storedOf (m : ModelMetadata) : ModelMetadata :=
  { m with methodOverrides := [] }

/-- The artifact payload inside one version's directory: nothing yet (the
directory was only just `os.makedirs`-created), a single copied file (kept
under its source file name), or a copied directory tree at the `model`
subdirectory (only the contained file sizes matter to the registry). -/
inductive ArtFile where
  | absent
  | artCopy (fname : String) (size : Nat)
  | tree (sizes : List Nat)

/-- One version's artifact directory `<root>/<name>/<version>/`. -/
structure VersionDir where
  meta : MetaFile
  art : ArtFile

/-- The whole observable on-disk state of one registry storage root: the
parsed content of `registry_index.json` and the existing version directories,
keyed by (name, version).  `ModelRegistry.__init__` on a fresh root writes an
empty index and creates no version directories. -/
structure RegState where
  index : Index
  files : List ((String × String) × VersionDir)

/-- A fresh storage root right after `ModelRegistry.__init__`. -/
def initState : RegState where
  index := []
  files := []

/-- Filesystem mutation events, in the order the registry performs them; used
to state the operation-ordering claims. -/
inductive Ev where
  | makedirs (nm ver : String)
  | copyFile (nm ver : String)
  | copyTree (nm ver : String)
  | rmtreeTarget (nm ver : String)
  | writeMetadata (nm ver : String)
  | writeIndex
  | rmtreeDir (nm ver : String)
deriving DecidableEq

/-- Injected I/O faults: `copyFail` makes the artifact copy call raise before
touching the target (e.g. the source becomes unreadable), `metaWriteFail`
makes `yaml.dump` raise after `open(..., 'w')` has truncated the metadata
file. -/
structure Faults where
  copyFail : Bool
  metaWriteFail : Bool

/-- No injected I/O faults. -/
def noFaults : Faults where
  copyFail := false
  metaWriteFail := false

/-- The source path argument of `register_model`: an existing file (with its
base name and size), an existing directory (with its contained file sizes),
or a path that does not exist. -/
inductive SourcePath where
  | srcFile (fname : String) (size : Nat)
  | srcDir (sizes : List Nat)
  | missing

/-- `os.makedirs(model_dir, exist_ok=True)`: creates the (empty) version
directory if absent, leaves an existing one untouched. -/
def ensureDir (fs : List ((String × String) × VersionDir)) (nm ver : String) :
    List ((String × String) × VersionDir) :=
  match alGet fs (nm, ver) with
  | some _ => fs
  | none => alInsert fs (nm, ver) ⟨MetaFile.absent, ArtFile.absent⟩

/-- Modify an existing version directory (no-op if absent; every call site
has just ensured or observed its existence). -/
def withDir (fs : List ((String × String) × VersionDir)) (nm ver : String)
    (f : VersionDir → VersionDir) : List ((String × String) × VersionDir) :=
  match alGet fs (nm, ver) with
  | some d => alInsert fs (nm, ver) (f d)
  | none => fs

/-- Replace the artifact payload of a version directory. -/
def withArt (s : RegState) (nm ver : String) (a : ArtFile) : RegState :=
  { s with files := withDir s.files nm ver (fun d => { d with art := a }) }

/-- Replace the metadata-file state of a version directory. -/
def withMeta (s : RegState) (nm ver : String) (mf : MetaFile) : RegState :=
  { s with files := withDir s.files nm ver (fun d => { d with meta := mf }) }

/-- `ModelRegistry._update_index`: create the name's sub-dict if missing,
assign the version's entry, write the whole index back. -/
def updateIndex (idx : Index) (nm ver : String) (e : IndexEntry) : Index :=
  alInsert idx nm (alInsert ((alGet idx nm).getD []) ver e)

/-- Whether `(nm, ver)` has an entry in the index. -/
def idxGet (idx : Index) (nm ver : String) : Option IndexEntry :=
  match alGet idx nm with
  | some vl => alGet vl ver
  | none => none

/-- Index entry exists for `(nm, ver)`. -/
def indexHas (s : RegState) (nm ver : String) : Bool :=
  (idxGet s.index nm ver).isSome

/-- Artifact directory exists for `(nm, ver)`. -/
def dirExists (s : RegState) (nm ver : String) : Bool :=
  (alGet s.files (nm, ver)).isSome

/-- The `metadata.yaml` file exists for `(nm, ver)` (it lives inside the
version's artifact directory). -/
def metadataExists (s : RegState) (nm ver : String) : Bool :=
  match alGet s.files (nm, ver) with
  | some d =>
    match d.meta with
    | MetaFile.absent => false
    | _ => true
  | none => false

/-- Code-point-wise lexicographic comparison of character lists, the order
CPython uses when comparing `str` sort keys (and the order of Lean's `String`
instances, written as an executable Boolean so concrete states evaluate). -/
def charListLe : List Char → List Char → Bool
  | [], _ => true
  | _ :: _, [] => false
  | a :: as, b :: bs =>
    if a < b then true else if b < a then false else charListLe as bs

/-- Strict code-point-wise lexicographic comparison of character lists. -/
def charListLt : List Char → List Char → Bool
  | [], [] => false
  | [], _ :: _ => true
  | _ :: _, [] => false
  | a :: as, b :: bs =>
    if a < b then true else if b < a then false else charListLt as bs

/-- Python string comparison `a <= b`. -/
def strLe (a b : String) : Bool := charListLe a.data b.data

/-- Python string comparison `a < b`. -/
def strLt (a b : String) : Bool := charListLt a.data b.data

/-- Stable insertion step for descending sort by a string key: the new element
is placed before the first element whose key is ≤ its own.  Combined with
`sortByDesc` this is extensionally Python's stable
`list.sort(key=..., reverse=True)`: descending by key, equal keys keep their
original relative order. -/
def insertByDesc {α : Type} (key : α → String) (x : α) :
    List α → List α
  | [] => [x]
  | y :: ys =>
    if strLe (key y) (key x) then x :: y :: ys
    else y :: insertByDesc key x ys

/-- Stable descending sort by a string key (see `insertByDesc`). -/
def sortByDesc {α : Type} (key : α → String) : List α → List α
  | [] => []
  | x :: xs => insertByDesc key x (sortByDesc key xs)

/-- The sort key of `list_versions`:
`index[name][v].get("created_at", "")`.  Registration and update always store
an isoformat string there; a non-string value (reachable only by updating
`created_at` to a non-string, where CPython's sort would raise comparing mixed
types) is mapped to the empty string. -/
def createdKey (vl : List (String × IndexEntry)) (v : String) : String :=
  match alGet vl v with
  | some e =>
    match e.created_at with
    | Value.vStr s => s
    | _ => ""
  | none => ""

/-- `ModelRegistry.list_versions`: raises `ValueError` when the name is not in
the index, otherwise returns the name's version keys sorted by `created_at`
descending (Python's stable in-place sort with `reverse=True`). -/
def list_versions (s : RegState) (nm : String) :
    Except String (List String) :=
  match alGet s.index nm with
  | none => Except.error ("Model not found: " ++ nm)
  | some vl => Except.ok (sortByDesc (createdKey vl) (vl.map Prod.fst))

/-- `ModelRegistry.get_latest_version`: first element of `list_versions` if
any; `None` when the list is empty or `list_versions` raised `ValueError`. -/
def get_latest_version (s : RegState) (nm : String) : Option String :=
  match list_versions s nm with
  | Except.ok vs => vs.head?
  | Except.error _ => none

/-- Reading `metadata.yaml` of one version, as `get_model_metadata` does with
an explicit version: `ValueError` when the file (or its directory) is absent,
a load failure on a truncated file, otherwise the stored record. -/
def readMeta (s : RegState) (nm ver : String) :
    Except String ModelMetadata :=
  match alGet s.files (nm, ver) with
  | none => Except.error ("Metadata not found for model " ++ nm)
  | some d =>
    match d.meta with
    | MetaFile.stored m => Except.ok m
    | MetaFile.halfWritten => Except.error ("yaml load failed")
    | MetaFile.absent => Except.error ("Metadata not found for model " ++ nm)

/-- `ModelRegistry.get_model_metadata`: resolves an omitted version through
`get_latest_version` (raising `ValueError` when that yields `None`), then
reads the version's metadata file. -/
def get_model_metadata (s : RegState) (nm : String) (verOpt : Option String) :
    Except String ModelMetadata :=
  match verOpt with
  | some ver => readMeta s nm ver
  | none =>
    match get_latest_version s nm with
    | none => Except.error ("No versions found for model: " ++ nm)
    | some ver => readMeta s nm ver

/-- The tail of `register_model` once the artifact is in place: write
`metadata.yaml` (`open(..., 'w')` truncates, then `yaml.dump`; an injected
write fault leaves the file truncated), then publish the index entry via
`_update_index`. -/
def finishRegister (s : RegState) (fa : Faults) (nm ver : String)
    (m2 : ModelMetadata) (tr : List Ev) :
    Except String ModelMetadata × RegState × List Ev :=
  if fa.metaWriteFail then
    (Except.error ("metadata write failed"),
     withMeta s nm ver MetaFile.halfWritten, tr ++ [Ev.writeMetadata nm ver])
  else
    let s3 := withMeta s nm ver (MetaFile.stored (storedOf m2))
    let s4 : RegState :=
      { s3 with index := updateIndex s3.index nm ver (entryOf m2) }
    (Except.ok m2, s4, tr ++ [Ev.writeMetadata nm ver, Ev.writeIndex])

/-- The directory-payload copy branch of `register_model` (the version
directory was already `os.makedirs`-ensured): an existing `model` target is
`shutil.rmtree`d before `shutil.copytree` (and `rmtree` on a regular file
named `model` raises `NotADirectoryError`). -/
def registerCopyDir (s : RegState) (fa : Faults) (nm ver : String)
    (m1 : ModelMetadata) (sizes : List Nat) :
    Except String ModelMetadata × RegState × List Ev :=
  match (alGet (ensureDir s.files nm ver) (nm, ver)).map VersionDir.art with
  | some (ArtFile.artCopy fname _) =>
    if fname = "model" then
      (Except.error ("NotADirectoryError"),
       { s with files := ensureDir s.files nm ver }, [Ev.makedirs nm ver])
    else if fa.copyFail then
      (Except.error ("copy failed"),
       { s with files := ensureDir s.files nm ver }, [Ev.makedirs nm ver])
    else
      finishRegister
        (withArt { s with files := ensureDir s.files nm ver } nm ver
          (ArtFile.tree sizes)) fa nm ver
        { m1 with
          path := Value.vStr (nm ++ "/" ++ ver ++ "/model"),
          size_bytes := Value.vNat sizes.sum }
        [Ev.makedirs nm ver, Ev.copyTree nm ver]
  | some (ArtFile.tree _) =>
    if fa.copyFail then
      (Except.error ("copy failed"),
       withArt { s with files := ensureDir s.files nm ver } nm ver
         ArtFile.absent,
       [Ev.makedirs nm ver, Ev.rmtreeTarget nm ver])
    else
      finishRegister
        (withArt
          (withArt { s with files := ensureDir s.files nm ver } nm ver
            ArtFile.absent) nm ver (ArtFile.tree sizes)) fa nm ver
        { m1 with
          path := Value.vStr (nm ++ "/" ++ ver ++ "/model"),
          size_bytes := Value.vNat sizes.sum }
        [Ev.makedirs nm ver, Ev.rmtreeTarget nm ver, Ev.copyTree nm ver]
  | _ =>
    if fa.copyFail then
      (Except.error ("copy failed"),
       { s with files := ensureDir s.files nm ver }, [Ev.makedirs nm ver])
    else
      finishRegister
        (withArt { s with files := ensureDir s.files nm ver } nm ver
          (ArtFile.tree sizes)) fa nm ver
        { m1 with
          path := Value.vStr (nm ++ "/" ++ ver ++ "/model"),
          size_bytes := Value.vNat sizes.sum }
        [Ev.makedirs nm ver, Ev.copyTree nm ver]

/-- The copy phase of `register_model`, after the metadata merge succeeded:
`os.makedirs(model_dir, exist_ok=True)`, then the payload copy, raising
`ValueError` when the source path does not exist â note the version directory
was already created by then. -/
def registerCopy (s : RegState) (fa : Faults) (src : SourcePath)
    (nm ver : String) (m1 : ModelMetadata) :
    Except String ModelMetadata × RegState × List Ev :=
  match src with
  | SourcePath.missing =>
    (Except.error ("Model path does not exist"),
     { s with files := ensureDir s.files nm ver }, [Ev.makedirs nm ver])
  | SourcePath.srcFile fname size =>
    if fa.copyFail then
      (Except.error ("copy failed"),
       { s with files := ensureDir s.files nm ver }, [Ev.makedirs nm ver])
    else
      finishRegister
        (withArt { s with files := ensureDir s.files nm ver } nm ver
          (ArtFile.artCopy fname size)) fa nm ver
        { m1 with
          path := Value.vStr (nm ++ "/" ++ ver ++ "/" ++ fname),
          size_bytes := Value.vNat size }
        [Ev.makedirs nm ver, Ev.copyFile nm ver]
  | SourcePath.srcDir sizes => registerCopyDir s fa nm ver m1 sizes

/-- The metadata-merge phase of `register_model`: build the default record
(status `registered`, `created_at` = now), run the shared merge loop, then
hand over to the copy phase. -/
def registerCore (s : RegState) (fa : Faults) (src : SourcePath)
    (nm ver desc : String) (md : List (String × Value)) (now : String) :
    Except String ModelMetadata × RegState × List Ev :=
  match applyUpdates (mkDefault nm ver desc now) md with
  | Except.error e => (Except.error e, s, [])
  | Except.ok m1 => registerCopy s fa src nm ver m1

/-- `ModelRegistry.register_model`, step by step in source order: resolve the
version (`_generate_version`'s output is the `genV` parameter), build the
default record, run the metadata-merge loop, `os.makedirs` the version
directory, copy the payload, set `path`/`size_bytes`, write `metadata.yaml`,
publish the index entry last. -/
def register_model (s : RegState) (fa : Faults) (src : SourcePath)
    (nm : String) (verOpt : Option String) (genV desc : String)
    (md : List (String × Value)) (now : String) :
    Except String ModelMetadata × RegState × List Ev :=
  registerCore s fa src nm (verOpt.getD genV) desc md now

/-- The write-back phase of `update_model_metadata`, after the current record
was read: run the shared merge loop, stamp
`updated_at = datetime.now().isoformat()` (the `now` parameter), rewrite
`metadata.yaml`, republish the index entry. -/
def updateApply (s : RegState) (nm ver : String) (m0 : ModelMetadata)
    (upd : List (String × Value)) (now : String) :
    Except String ModelMetadata × RegState × List Ev :=
  match applyUpdates m0 upd with
  | Except.error e => (Except.error e, s, [])
  | Except.ok m1 =>
    (Except.ok { m1 with updated_at := Value.vStr now },
     { index := updateIndex s.index nm ver
         (entryOf { m1 with updated_at := Value.vStr now }),
       files := withDir s.files nm ver
         (fun d =>
           { d with
             meta := MetaFile.stored
               (storedOf { m1 with updated_at := Value.vStr now }) }) },
     [Ev.writeMetadata nm ver, Ev.writeIndex])

/-- `ModelRegistry.update_model_metadata`: read the current record (raising if
absent), then merge, stamp `updated_at`, rewrite the metadata file and
republish the index entry. -/
def update_model_metadata (s : RegState) (nm ver : String)
    (upd : List (String × Value)) (now : String) :
    Except String ModelMetadata × RegState × List Ev :=
  match readMeta s nm ver with
  | Except.error e => (Except.error e, s, [])
  | Except.ok m0 => updateApply s nm ver m0 upd now

/-- `ModelRegistry._delete_model_version`: `shutil.rmtree` of the version's
directory if it exists (removing the metadata file inside it together with the
artifacts), no-op otherwise. -/
def deleteVersionDir (s : RegState) (nm ver : String) : RegState × List Ev :=
  match alGet s.files (nm, ver) with
  | some _ =>
    ({ s with files := alErase s.files (nm, ver) }, [Ev.rmtreeDir nm ver])
  | none => (s, [])

/-- The all-versions loop of `delete_model(name, None)`:
`for v in versions: self._delete_model_version(name, v)`. -/
def deleteAllVersions (s : RegState) (nm : String) :
    List String → RegState × List Ev
  | [] => (s, [])
  | v :: vs =>
    let p1 := deleteVersionDir s nm v
    let p2 := deleteAllVersions p1.fst nm vs
    (p2.fst, p1.snd ++ p2.snd)

/-- `ModelRegistry.delete_model`: `False` when the name (or the explicit
version) is absent from the index; otherwise removes the version directory
(or all of them) first and writes the shrunken index last, returning `True`.
An emptied name is dropped from the index entirely. -/
def delete_model (s : RegState) (nm : String) (verOpt : Option String) :
    Bool × RegState × List Ev :=
  match alGet s.index nm with
  | none => (false, s, [])
  | some vl =>
    match verOpt with
    | none =>
      let p1 := deleteAllVersions s nm (vl.map Prod.fst)
      (true, { p1.fst with index := alErase p1.fst.index nm },
       p1.snd ++ [Ev.writeIndex])
    | some ver =>
      if (alGet vl ver).isSome then
        let p1 := deleteVersionDir s nm ver
        let vl2 := alErase vl ver
        let idx2 :=
          if vl2.isEmpty then alErase p1.fst.index nm
          else alInsert p1.fst.index nm vl2
        (true, { p1.fst with index := idx2 }, p1.snd ++ [Ev.writeIndex])
      else (false, s, [])

/-- Observable contents of the index file at some instant, from a concurrent
reader's point of view. -/
inductive FileObs where
  | truncated
  | content (idx : Index)

/-- The sequence of index-file states a reader can observe while
`ModelRegistry._write_index` runs: `open(self.index_file, 'w')` truncates the
file in place, then `json.dump` fills in the serialized index.  There is no
temporary file and no rename. -/
def writeIndexObs (idx : Index) : List FileObs :=
  [FileObs.truncated, FileObs.content idx]

/-- Follows the spec's words (refinement target, not the source): a
write-to-temp-then-atomic-rename save never exposes a truncated index file to
any reader. -/
def atomicSaveDiscipline (obs : List FileObs) : Prop :=
  FileObs.truncated ∉ obs

/-- Follows the spec's words (refinement target, not the source): the ordering
claimed for single-version deletion — the index entry is removed before
anything else, i.e. the first mutation event is the index write. -/
def specDeleteIndexFirst : List Ev → Bool
  | Ev.writeIndex :: _ => true
  | _ => false

/-- Follows the spec's words (refinement target, not the source): the version
list is ordered by `created_at` descending with ties broken by descending
lexicographic order of the version string itself. -/
def specTieBreakSorted (key : String → String) : List String → Bool
  | [] => true
  | [_] => true
  | x :: y :: rest =>
    (strLt (key y) (key x) || (key y == key x && strLt y x)) &&
      specTieBreakSorted key (y :: rest)

/-- One public mutating registry operation, with the environment inputs
(generated version, clock reading) it consumes. -/
inductive Op where
  | opRegister (src : SourcePath) (nm : String) (verOpt : Option String)
      (genV desc : String) (md : List (String × Value)) (now : String)
  | opUpdate (nm ver : String) (upd : List (String × Value)) (now : String)
  | opDelete (nm : String) (verOpt : Option String)

/-- The state left behind by one operation (reads change nothing; injected
I/O faults are off — the claim-C1 analysis of fault states is separate). -/
def applyOp (s : RegState) : Op → RegState
  | Op.opRegister src nm verOpt genV desc md now =>
    (register_model s noFaults src nm verOpt genV desc md now).snd.fst
  | Op.opUpdate nm ver upd now =>
    (update_model_metadata s nm ver upd now).snd.fst
  | Op.opDelete nm verOpt => (delete_model s nm verOpt).snd.fst

/-- Operations whose preconditions make partial registration impossible: a
register call must be given an existing source path. -/
def okOp : Op → Prop
  | Op.opRegister src _ _ _ _ _ _ => src ≠ SourcePath.missing
  | _ => True

/-- The three-way existence invariant of the spec: an index entry exists for
`(nm, ver)` iff the artifact directory exists iff the metadata record
exists. -/
def RegInv (s : RegState) : Prop :=
  ∀ nm ver : String,
    (indexHas s nm ver = true ↔ dirExists s nm ver = true) ∧
    (indexHas s nm ver = true ↔ metadataExists s nm ver = true)


/-! ## Concrete fixtures and observers used to instantiate the claims -/

/-- Observer: the `created_at` field of the stored metadata record of
`(nm, ver)`, if readable. -/
def storedCreatedAt (s : RegState) (nm ver : String) : Option Value :=
  match readMeta s nm ver with
  | Except.ok m => some m.created_at
  | Except.error _ => none

/-- A sample run: registering model `m`, version `1`, from a 4-byte file
`w.bin`, on a fresh storage root. -/
def sampleReg : Except String ModelMetadata × RegState × List Ev :=
  register_model initState noFaults (SourcePath.srcFile "w.bin" 4) "m"
    (some ("1")) "gen" "" [] "2024-01-01T00:00:00"

/-- The storage state after `sampleReg`. -/
def sReg : RegState := sampleReg.snd.fst

/-- The metadata record `sampleReg` returns and stores. -/
def sampleMeta : ModelMetadata :=
  { mkDefault "m" "1" "" "2024-01-01T00:00:00" with
    path := Value.vStr ("m/1/w.bin"), size_bytes := Value.vNat 4 }

/-- An index entry fixture with a fixed timestamp, for the tie-break
analysis of `list_versions`. -/
def tieEntry : IndexEntry where
  created_at := Value.vStr ("2024-01-01T00:00:00")
  description := Value.vStr ("")
  path := Value.vNone
  status := Value.vStr ("registered")

/-- Two versions `a`, `b` of one model, registered in that order, with equal
`created_at` timestamps. -/
def tieVl : List (String × IndexEntry) := [("a", tieEntry), ("b", tieEntry)]

/-- A registry state whose index holds the tied versions of `tieVl`. -/
def sTie : RegState where
  index := [("m", tieVl)]
  files := []

/-! ## Association-list lemmas -/

theorem alGet_insert_self {α β : Type} [DecidableEq α]
    (l : List (α × β)) (k : α) (b : β) :
    alGet (alInsert l k b) k = some b := by
  induction l with
  | nil => simp [alInsert, alGet]
  | cons p rest ih =>
    by_cases h : k = p.fst
    · simp [alInsert, alGet, h]
    · simp [alInsert, alGet, h, ih]

theorem alGet_insert_ne {α β : Type} [DecidableEq α]
    (l : List (α × β)) (k a : α) (b : β) (h : a ≠ k) :
    alGet (alInsert l k b) a = alGet l a := by
  induction l with
  | nil => simp [alInsert, alGet, h]
  | cons p rest ih =>
    by_cases hk : k = p.fst
    · subst hk
      simp [alInsert, alGet, h, ih]
    · by_cases ha : a = p.fst
      · simp [alInsert, alGet, hk, ha]
      · simp [alInsert, alGet, hk, ha, ih]

theorem alGet_erase_self {α β : Type} [DecidableEq α]
    (l : List (α × β)) (k : α) :
    alGet (alErase l k) k = none := by
  induction l with
  | nil => simp [alErase, alGet]
  | cons p rest ih =>
    by_cases h : p.fst = k
    · simp [alErase, h, ih]
    · have h2 : ¬ k = p.fst := fun hh => h hh.symm
      simp [alErase, h, alGet, h2, ih]

theorem alGet_erase_ne {α β : Type} [DecidableEq α]
    (l : List (α × β)) (k a : α) (h : a ≠ k) :
    alGet (alErase l k) a = alGet l a := by
  induction l with
  | nil => simp [alErase, alGet]
  | cons p rest ih =>
    by_cases hp : p.fst = k
    · have ha : ¬ a = p.fst := fun hh => h (hh ▸ hp)
      simp [alErase, hp, alGet, ha, ih, h]
    · by_cases ha : a = p.fst
      · simp [alErase, hp, alGet, ha]
      · simp [alErase, hp, alGet, ha, ih]

theorem alGet_of_erase_eq_nil {α β : Type} [DecidableEq α]
    (l : List (α × β)) (k : α) (h : alErase l k = []) (a : α) (ha : a ≠ k) :
    alGet l a = none := by
  induction l with
  | nil => simp [alGet]
  | cons p rest ih =>
    by_cases hp : p.fst = k
    · have hrest : alErase rest k = [] := by
        have := h
        rwa [alErase, if_pos hp] at this
      have hap : ¬ a = p.fst := fun hh => ha (hh ▸ hp)
      simp [alGet, hap, ih hrest]
    · rw [alErase, if_neg hp] at h
      exact absurd h (by simp)

/-- Two-level index lookup after `_update_index`. -/
theorem idxGet_updateIndex (idx : Index) (nm ver : String) (e : IndexEntry)
    (n2 v2 : String) :
    idxGet (updateIndex idx nm ver e) n2 v2 =
      if n2 = nm then
        (if v2 = ver then some e else idxGet idx nm v2)
      else idxGet idx n2 v2 := by
  by_cases hn : n2 = nm
  · subst hn
    by_cases hv : v2 = ver
    · subst hv
      simp [idxGet, updateIndex, alGet_insert_self]
    · simp only [idxGet, updateIndex, alGet_insert_self, if_pos rfl,
        if_neg hv]
      rw [alGet_insert_ne _ _ _ _ hv]
      cases h : alGet idx n2 <;> simp [h, alGet]
  · simp only [idxGet, updateIndex, if_neg hn]
    rw [alGet_insert_ne _ _ _ _ hn]

/-! ## Stable-sort lemmas for `list_versions` -/

theorem charListLe_refl (l : List Char) : charListLe l l = true := by
  induction l with
  | nil => rfl
  | cons a as ih => simp [charListLe, ih]

theorem charListLe_total (a b : List Char) :
    charListLe a b = true ∨ charListLe b a = true := by
  induction a generalizing b with
  | nil => exact Or.inl rfl
  | cons x xs ih =>
    cases b with
    | nil => exact Or.inr rfl
    | cons y ys =>
      rcases lt_trichotomy x y with h | h | h
      · left
        simp [charListLe, h]
      · subst h
        have hxx : ¬ x < x := lt_irrefl x
        rcases ih ys with h2 | h2
        · left
          simp [charListLe, hxx, h2]
        · right
          simp [charListLe, hxx, h2]
      · right
        simp [charListLe, h]

theorem charListLe_trans (a b c : List Char) (h1 : charListLe a b = true)
    (h2 : charListLe b c = true) : charListLe a c = true := by
  induction a generalizing b c with
  | nil => rfl
  | cons x xs ih =>
    cases b with
    | nil => simp [charListLe] at h1
    | cons y ys =>
      cases c with
      | nil => simp [charListLe] at h2
      | cons z zs =>
        by_cases hxy : x < y
        · by_cases hyz : y < z
          · simp [charListLe, lt_trans hxy hyz]
          · by_cases hzy : z < y
            · rw [charListLe, if_neg hyz, if_pos hzy] at h2
              exact absurd h2 (by simp)
            · have hyzeq : y = z :=
                le_antisymm (not_lt.mp hzy) (not_lt.mp hyz)
              subst hyzeq
              simp [charListLe, hxy]
        · by_cases hyx : y < x
          · rw [charListLe, if_neg hxy, if_pos hyx] at h1
            exact absurd h1 (by simp)
          · have hxyeq : x = y :=
              le_antisymm (not_lt.mp hyx) (not_lt.mp hxy)
            subst hxyeq
            rw [charListLe, if_neg hxy, if_neg hyx] at h1
            by_cases hxz : x < z
            · simp [charListLe, hxz]
            · by_cases hzx : z < x
              · rw [charListLe, if_neg hxz, if_pos hzx] at h2
                exact absurd h2 (by simp)
              · rw [charListLe, if_neg hxz, if_neg hzx] at h2
                rw [charListLe, if_neg hxz, if_neg hzx]
                exact ih ys zs h1 h2

theorem strLe_refl (a : String) : strLe a a = true := charListLe_refl a.data

theorem strLe_total (a b : String) :
    strLe a b = true ∨ strLe b a = true := charListLe_total a.data b.data

theorem strLe_trans (a b c : String) (h1 : strLe a b = true)
    (h2 : strLe b c = true) : strLe a c = true :=
  charListLe_trans a.data b.data c.data h1 h2

theorem strLe_of_eq (a b : String) (h : a = b) : strLe a b = true := by
  rw [h]
  exact strLe_refl b

theorem insertByDesc_perm {α : Type} (key : α → String) (x : α)
    (l : List α) : (insertByDesc key x l).Perm (x :: l) := by
  induction l with
  | nil => simp [insertByDesc]
  | cons y ys ih =>
    by_cases h : strLe (key y) (key x) = true
    · simp [insertByDesc, h]
    · rw [insertByDesc, if_neg h]
      exact (ih.cons y).trans (List.Perm.swap x y ys)

theorem sortByDesc_perm {α : Type} (key : α → String) (l : List α) :
    (sortByDesc key l).Perm l := by
  induction l with
  | nil => simp [sortByDesc]
  | cons x xs ih =>
    exact (insertByDesc_perm key x (sortByDesc key xs)).trans (ih.cons x)

theorem insertByDesc_pairwise {α : Type} (key : α → String) (x : α)
    (l : List α)
    (h : l.Pairwise (fun a b => strLe (key b) (key a) = true)) :
    (insertByDesc key x l).Pairwise
      (fun a b => strLe (key b) (key a) = true) := by
  induction l with
  | nil => simp [insertByDesc]
  | cons y ys ih =>
    rcases List.pairwise_cons.mp h with ⟨hy, hys⟩
    by_cases hle : strLe (key y) (key x) = true
    · rw [insertByDesc, if_pos hle]
      refine List.pairwise_cons.mpr ⟨?_, h⟩
      intro z hz
      rcases List.mem_cons.mp hz with rfl | hz2
      · exact hle
      · exact strLe_trans _ _ _ (hy z hz2) hle
    · rw [insertByDesc, if_neg hle]
      refine List.pairwise_cons.mpr ⟨?_, ih hys⟩
      intro z hz
      have hz2 := (insertByDesc_perm key x ys).mem_iff.mp hz
      rcases List.mem_cons.mp hz2 with hz3 | hz3
      · rw [hz3]
        rcases strLe_total (key y) (key x) with h4 | h4
        · exact absurd h4 hle
        · exact h4
      · exact hy z hz3

theorem sortByDesc_pairwise {α : Type} (key : α → String) (l : List α) :
    (sortByDesc key l).Pairwise
      (fun a b => strLe (key b) (key a) = true) := by
  induction l with
  | nil => simp [sortByDesc]
  | cons x xs ih => exact insertByDesc_pairwise key x _ ih

/-- Stability of the descending insertion: the sub-list of elements with any
fixed key value gains the new element at its front exactly when the new
element has that key, and is otherwise untouched. -/
theorem insertByDesc_filter_key {α : Type} (key : α → String) (x : α)
    (l : List α) (c : String) :
    (insertByDesc key x l).filter (fun a => key a == c) =
      if key x = c then x :: l.filter (fun a => key a == c)
      else l.filter (fun a => key a == c) := by
  induction l with
  | nil =>
    by_cases h : key x = c <;> simp [insertByDesc, List.filter_cons, h]
  | cons y ys ih =>
    by_cases hle : strLe (key y) (key x) = true
    · rw [insertByDesc, if_pos hle]
      by_cases h : key x = c <;> simp [List.filter_cons, h]
    · rw [insertByDesc, if_neg hle]
      by_cases h : key x = c
      · have hy : ¬ (key y = c) := by
          intro hc
          have heq : key y = key x := by rw [hc, h]
          rw [strLe_of_eq _ _ heq] at hle
          exact hle rfl
        simp [List.filter_cons, hy, ih, h]
      · by_cases hyc : key y = c <;>
          simp [List.filter_cons, hyc, ih, h]

/-- Stability of the whole sort: for any key value, the elements carrying it
appear in the output in their original relative order. -/
theorem sortByDesc_filter_key {α : Type} (key : α → String) (l : List α)
    (c : String) :
    (sortByDesc key l).filter (fun a => key a == c) =
      l.filter (fun a => key a == c) := by
  induction l with
  | nil => rfl
  | cons x xs ih =>
    rw [sortByDesc, insertByDesc_filter_key]
    by_cases h : key x = c <;> simp [List.filter_cons, h, ih]

/-! ## File-map lookup lemmas -/

theorem mem_keys_of_alGet {α β : Type} [DecidableEq α]
    {l : List (α × β)} {a : α} {b : β} (h : alGet l a = some b) :
    a ∈ l.map Prod.fst := by
  induction l with
  | nil => simp [alGet] at h
  | cons p rest ih =>
    by_cases ha : a = p.fst
    · simp [ha]
    · rw [alGet, if_neg ha] at h
      simp [ih h]

theorem alGet_withDir_self (fs : List ((String × String) × VersionDir))
    (nm ver : String) (f : VersionDir → VersionDir) :
    alGet (withDir fs nm ver f) (nm, ver) = (alGet fs (nm, ver)).map f := by
  unfold withDir
  cases h : alGet fs (nm, ver) with
  | none => simp [h]
  | some d => simp [h, alGet_insert_self]

theorem alGet_withDir_ne (fs : List ((String × String) × VersionDir))
    (nm ver : String) (f : VersionDir → VersionDir) (n2 v2 : String)
    (h : (n2, v2) ≠ (nm, ver)) :
    alGet (withDir fs nm ver f) (n2, v2) = alGet fs (n2, v2) := by
  unfold withDir
  cases h0 : alGet fs (nm, ver) with
  | none => rfl
  | some d => rw [alGet_insert_ne _ _ _ _ h]

theorem alGet_ensureDir_ne (fs : List ((String × String) × VersionDir))
    (nm ver : String) (n2 v2 : String) (h : (n2, v2) ≠ (nm, ver)) :
    alGet (ensureDir fs nm ver) (n2, v2) = alGet fs (n2, v2) := by
  unfold ensureDir
  cases h0 : alGet fs (nm, ver) with
  | none => rw [alGet_insert_ne _ _ _ _ h]
  | some d => rfl

theorem isSome_alGet_ensureDir_self (fs : List ((String × String) × VersionDir))
    (nm ver : String) :
    (alGet (ensureDir fs nm ver) (nm, ver)).isSome = true := by
  unfold ensureDir
  cases h0 : alGet fs (nm, ver) with
  | none => simp [alGet_insert_self]
  | some d => simp [h0]

theorem ensureDir_of_isSome (fs : List ((String × String) × VersionDir))
    (nm ver : String) (h : (alGet fs (nm, ver)).isSome = true) :
    ensureDir fs nm ver = fs := by
  unfold ensureDir
  cases h0 : alGet fs (nm, ver) with
  | none => rw [h0] at h; simp at h
  | some d => rfl

theorem alGet_deleteVersionDir (s : RegState) (nm ver : String)
    (n2 v2 : String) :
    alGet (deleteVersionDir s nm ver).fst.files (n2, v2) =
      if (n2, v2) = (nm, ver) then none else alGet s.files (n2, v2) := by
  unfold deleteVersionDir
  cases h0 : alGet s.files (nm, ver) with
  | none =>
    by_cases h : (n2, v2) = (nm, ver)
    · simp [h, h0]
    · simp [h]
  | some d =>
    by_cases h : (n2, v2) = (nm, ver)
    · injection h with h1 h2
      subst h1
      subst h2
      simp [alGet_erase_self]
    · rw [if_neg h]
      show alGet (alErase s.files (nm, ver)) (n2, v2) = alGet s.files (n2, v2)
      exact alGet_erase_ne _ _ _ h

theorem index_deleteVersionDir (s : RegState) (nm ver : String) :
    (deleteVersionDir s nm ver).fst.index = s.index := by
  unfold deleteVersionDir
  cases h0 : alGet s.files (nm, ver) <;> rfl

theorem alGet_deleteAllVersions (s : RegState) (nm : String)
    (vs : List String) (n2 v2 : String) :
    alGet (deleteAllVersions s nm vs).fst.files (n2, v2) =
      if n2 = nm ∧ v2 ∈ vs then none else alGet s.files (n2, v2) := by
  induction vs generalizing s with
  | nil => simp [deleteAllVersions]
  | cons v rest ih =>
    rw [deleteAllVersions]
    by_cases hn : n2 = nm
    · subst hn
      by_cases hv : v2 = v
      · subst hv
        simp only [List.mem_cons, true_or, and_true, if_pos rfl, true_and]
        rw [ih]
        by_cases hmem : v2 ∈ rest
        · simp [hmem]
        · simp [hmem, alGet_deleteVersionDir]
      · rw [ih, alGet_deleteVersionDir]
        by_cases hmem : v2 ∈ rest
        · simp [hmem, hv]
        · have hne : (n2, v2) ≠ (n2, v) := by simp [hv]
          simp [hmem, hv, hne]
    · rw [ih, alGet_deleteVersionDir]
      have hne : (n2, v2) ≠ (nm, v) := by simp [hn]
      simp [hn, hne]

theorem index_deleteAllVersions (s : RegState) (nm : String)
    (vs : List String) :
    (deleteAllVersions s nm vs).fst.index = s.index := by
  induction vs generalizing s with
  | nil => rfl
  | cons v rest ih =>
    rw [deleteAllVersions]
    simp only [ih, index_deleteVersionDir]

/-! ## Metadata-merge lemmas -/

theorem setattrMM_created_at (m : ModelMetadata) (k : String) (v : Value)
    (h : k ≠ "created_at") :
    (setattrMM m k v).created_at = m.created_at := by
  rw [setattrMM]
  by_cases h1 : k = "name"
  · rw [if_pos h1]
  · rw [if_neg h1]
    by_cases h2 : k = "version"
    · rw [if_pos h2]
    · rw [if_neg h2]
      by_cases h3 : k = "description"
      · rw [if_pos h3]
      · rw [if_neg h3]
        by_cases h4 : k = "framework"
        · rw [if_pos h4]
        · rw [if_neg h4]
          by_cases h5 : k = "task_type"
          · rw [if_pos h5]
          · rw [if_neg h5]
            by_cases h6 : k = "tags"
            · rw [if_pos h6]
            · rw [if_neg h6]
              by_cases h7 : k = "author"
              · rw [if_pos h7]
              · rw [if_neg h7]
                by_cases h8 : k = "email"
                · rw [if_pos h8]
                · rw [if_neg h8]
                  by_cases h9 : k = "metrics"
                  · rw [if_pos h9]
                  · rw [if_neg h9]
                    by_cases h10 : k = "training_dataset"
                    · rw [if_pos h10]
                    · rw [if_neg h10]
                      by_cases h11 : k = "training_params"
                      · rw [if_pos h11]
                      · rw [if_neg h11]
                        by_cases h12 : k = "created_at"
                        · exact absurd h12 h
                        · rw [if_neg h12]
                          by_cases h13 : k = "updated_at"
                          · rw [if_pos h13]
                          · rw [if_neg h13]
                            by_cases h14 : k = "path"
                            · rw [if_pos h14]
                            · rw [if_neg h14]
                              by_cases h15 : k = "size_bytes"
                              · rw [if_pos h15]
                              · rw [if_neg h15]
                                by_cases h16 : k = "status"
                                · rw [if_pos h16]
                                · rw [if_neg h16]
                                  by_cases h17 : k = "deployment_env"
                                  · rw [if_pos h17]
                                  · rw [if_neg h17]
                                    by_cases h18 : k = "deployment_url"
                                    · rw [if_pos h18]
                                    · rw [if_neg h18]
                                      by_cases h19 : k = "custom"
                                      · rw [if_pos h19]
                                      · rw [if_neg h19]

theorem setattrMM_custom (m : ModelMetadata) (k : String) (v : Value)
    (h : k ≠ "custom") :
    (setattrMM m k v).custom = m.custom := by
  rw [setattrMM]
  by_cases h1 : k = "name"
  · rw [if_pos h1]
  · rw [if_neg h1]
    by_cases h2 : k = "version"
    · rw [if_pos h2]
    · rw [if_neg h2]
      by_cases h3 : k = "description"
      · rw [if_pos h3]
      · rw [if_neg h3]
        by_cases h4 : k = "framework"
        · rw [if_pos h4]
        · rw [if_neg h4]
          by_cases h5 : k = "task_type"
          · rw [if_pos h5]
          · rw [if_neg h5]
            by_cases h6 : k = "tags"
            · rw [if_pos h6]
            · rw [if_neg h6]
              by_cases h7 : k = "author"
              · rw [if_pos h7]
              · rw [if_neg h7]
                by_cases h8 : k = "email"
                · rw [if_pos h8]
                · rw [if_neg h8]
                  by_cases h9 : k = "metrics"
                  · rw [if_pos h9]
                  · rw [if_neg h9]
                    by_cases h10 : k = "training_dataset"
                    · rw [if_pos h10]
                    · rw [if_neg h10]
                      by_cases h11 : k = "training_params"
                      · rw [if_pos h11]
                      · rw [if_neg h11]
                        by_cases h12 : k = "created_at"
                        · rw [if_pos h12]
                        · rw [if_neg h12]
                          by_cases h13 : k = "updated_at"
                          · rw [if_pos h13]
                          · rw [if_neg h13]
                            by_cases h14 : k = "path"
                            · rw [if_pos h14]
                            · rw [if_neg h14]
                              by_cases h15 : k = "size_bytes"
                              · rw [if_pos h15]
                              · rw [if_neg h15]
                                by_cases h16 : k = "status"
                                · rw [if_pos h16]
                                · rw [if_neg h16]
                                  by_cases h17 : k = "deployment_env"
                                  · rw [if_pos h17]
                                  · rw [if_neg h17]
                                    by_cases h18 : k = "deployment_url"
                                    · rw [if_pos h18]
                                    · rw [if_neg h18]
                                      by_cases h19 : k = "custom"
                                      · exact absurd h19 h
                                      · rw [if_neg h19]

/-- Shape of a successful merge step: either the key was an attribute and was
`setattr`-stored, or it was routed into `custom`. -/
theorem applyOne_ok_shape (m m1 : ModelMetadata) (kv : String × Value)
    (hok : applyOne m kv = Except.ok m1) :
    (hasattrMM kv.fst = true ∧ m1 = setattrMM m kv.fst kv.snd) ∨
    (hasattrMM kv.fst = false ∧ ∃ kvs, m.custom = Value.vMap kvs ∧
      m1 = { m with custom := Value.vMap (alInsert kvs kv.fst kv.snd) }) := by
  unfold applyOne at hok
  by_cases hh : hasattrMM kv.fst
  · rw [if_pos hh] at hok
    injection hok with h2
    exact Or.inl ⟨hh, h2.symm⟩
  · rw [if_neg hh] at hok
    cases hc : m.custom with
    | vMap kvs =>
      rw [hc] at hok
      injection hok with h2
      exact Or.inr ⟨by simpa using hh, kvs, rfl, h2.symm⟩
    | vStr a => rw [hc] at hok; injection hok
    | vNat a => rw [hc] at hok; injection hok
    | vNone => rw [hc] at hok; injection hok
    | vList a => rw [hc] at hok; injection hok

theorem applyOne_created_at (m m1 : ModelMetadata) (kv : String × Value)
    (h : kv.fst ≠ "created_at") (hok : applyOne m kv = Except.ok m1) :
    m1.created_at = m.created_at := by
  rcases applyOne_ok_shape m m1 kv hok with ⟨_, rfl⟩ | ⟨_, kvs, _, rfl⟩
  · exact setattrMM_created_at m kv.fst kv.snd h
  · rfl

theorem applyUpdates_created_at (upd : List (String × Value)) :
    ∀ m m1 : ModelMetadata, "created_at" ∉ upd.map Prod.fst →
      applyUpdates m upd = Except.ok m1 → m1.created_at = m.created_at := by
  induction upd with
  | nil =>
    intro m m1 _ hok
    rw [applyUpdates] at hok
    injection hok with h2
    rw [h2]
  | cons kv rest ih =>
    intro m m1 hmem hok
    rw [applyUpdates] at hok
    have hkv : kv.fst ≠ "created_at" := by
      intro hC
      exact hmem (by simp [hC])
    have hrest : "created_at" ∉ rest.map Prod.fst := by
      intro hC
      exact hmem (by simp [hC])
    cases hone : applyOne m kv with
    | error e => rw [hone] at hok; injection hok
    | ok m2 =>
      rw [hone] at hok
      rw [ih m2 m1 hrest hok]
      exact applyOne_created_at m m2 kv hkv hone

/-! ## Operation characterizations -/

theorem index_withArt (s : RegState) (nm ver : String) (a : ArtFile) :
    (withArt s nm ver a).index = s.index := rfl

theorem index_withMeta (s : RegState) (nm ver : String) (mf : MetaFile) :
    (withMeta s nm ver mf).index = s.index := rfl

theorem finishRegister_ok_char (s2 : RegState) (fa : Faults)
    (nm ver : String) (m2 m3 : ModelMetadata) (tr tr3 : List Ev)
    (s3 : RegState)
    (h : finishRegister s2 fa nm ver m2 tr = (Except.ok m3, s3, tr3)) :
    m3 = m2 ∧
    s3.index = updateIndex s2.index nm ver (entryOf m2) ∧
    s3.files = withDir s2.files nm ver
      (fun d => { d with meta := MetaFile.stored (storedOf m2) }) ∧
    tr3 = tr ++ [Ev.writeMetadata nm ver, Ev.writeIndex] := by
  unfold finishRegister at h
  by_cases hf : fa.metaWriteFail
  · rw [if_pos hf] at h
    rw [Prod.mk.injEq] at h
    exact absurd h.1 (by simp)
  · rw [if_neg hf] at h
    rw [Prod.mk.injEq, Prod.mk.injEq] at h
    obtain ⟨h1, h2, h3⟩ := h
    injection h1 with h1
    exact ⟨h1.symm, by rw [← h2]; rfl, by rw [← h2]; rfl, h3.symm⟩

theorem finishRegister_error_char (s2 : RegState) (fa : Faults)
    (nm ver : String) (m2 : ModelMetadata) (tr tr3 : List Ev)
    (s3 : RegState) (e : String)
    (h : finishRegister s2 fa nm ver m2 tr = (Except.error e, s3, tr3)) :
    s3.index = s2.index ∧ tr3 = tr ++ [Ev.writeMetadata nm ver] := by
  unfold finishRegister at h
  by_cases hf : fa.metaWriteFail
  · rw [if_pos hf] at h
    rw [Prod.mk.injEq, Prod.mk.injEq] at h
    obtain ⟨h1, h2, h3⟩ := h
    exact ⟨by rw [← h2, index_withMeta], h3.symm⟩
  · rw [if_neg hf] at h
    rw [Prod.mk.injEq] at h
    exact absurd h.1 (by simp)

theorem registerCopy_error_char (s : RegState) (fa : Faults)
    (src : SourcePath) (nm ver : String) (m1 : ModelMetadata) (e : String)
    (s2 : RegState) (tr : List Ev)
    (h : registerCopy s fa src nm ver m1 = (Except.error e, s2, tr)) :
    s2.index = s.index ∧ Ev.writeIndex ∉ tr := by
  unfold registerCopy registerCopyDir finishRegister at h
  repeat' split at h
  all_goals rw [Prod.mk.injEq, Prod.mk.injEq] at h
  all_goals obtain ⟨h1, h2, h3⟩ := h
  all_goals first
    | exact Except.noConfusion h1
    | exact ⟨by rw [← h2]; try rfl, by rw [← h3]; simp⟩

theorem files_withArt (s : RegState) (nm ver : String) (a : ArtFile) :
    (withArt s nm ver a).files =
      withDir s.files nm ver (fun d => { d with art := a }) := rfl

theorem isSome_alGet_withDir (fs : List ((String × String) × VersionDir))
    (nm ver : String) (f : VersionDir → VersionDir)
    (h : (alGet fs (nm, ver)).isSome = true) :
    (alGet (withDir fs nm ver f) (nm, ver)).isSome = true := by
  rw [alGet_withDir_self]
  cases h0 : alGet fs (nm, ver) with
  | none => rw [h0] at h; simp at h
  | some d => simp

theorem dirExists_of_files (s2 : RegState)
    (fs : List ((String × String) × VersionDir)) (nm ver : String)
    (f : VersionDir → VersionDir)
    (hfiles : s2.files = withDir fs nm ver f)
    (hs : (alGet fs (nm, ver)).isSome = true) :
    dirExists s2 nm ver = true := by
  unfold dirExists
  rw [hfiles]
  exact isSome_alGet_withDir fs nm ver f hs

theorem metadataExists_of_files_store (s2 : RegState)
    (fs : List ((String × String) × VersionDir)) (nm ver : String)
    (m : ModelMetadata)
    (hfiles : s2.files =
      withDir fs nm ver (fun d => { d with meta := MetaFile.stored m }))
    (hs : (alGet fs (nm, ver)).isSome = true) :
    metadataExists s2 nm ver = true := by
  unfold metadataExists
  rw [hfiles, alGet_withDir_self]
  cases h0 : alGet fs (nm, ver) with
  | none => rw [h0] at hs; simp at hs
  | some d => simp

theorem pubSplit (TR : List Ev) (nm ver : String)
    (h1 : Ev.writeIndex ∉ TR)
    (h2 : Ev.copyFile nm ver ∈ TR ∨ Ev.copyTree nm ver ∈ TR) :
    ∃ p, TR ++ [Ev.writeMetadata nm ver, Ev.writeIndex] =
        p ++ [Ev.writeIndex] ∧
      Ev.writeIndex ∉ p ∧ Ev.writeMetadata nm ver ∈ p ∧
      (Ev.copyFile nm ver ∈ p ∨ Ev.copyTree nm ver ∈ p) := by
  refine ⟨TR ++ [Ev.writeMetadata nm ver], by simp, ?_, by simp, ?_⟩
  · simp [List.mem_append, h1]
  · rcases h2 with h | h
    · exact Or.inl (by simp [h])
    · exact Or.inr (by simp [h])

theorem registerCopy_ok_char (s : RegState) (fa : Faults) (src : SourcePath)
    (nm ver : String) (m1 m2 : ModelMetadata) (s2 : RegState) (tr : List Ev)
    (h : registerCopy s fa src nm ver m1 = (Except.ok m2, s2, tr)) :
    s2.index = updateIndex s.index nm ver (entryOf m2) ∧
    (∀ n2 v2, (n2, v2) ≠ (nm, ver) →
      alGet s2.files (n2, v2) = alGet s.files (n2, v2)) ∧
    dirExists s2 nm ver = true ∧
    metadataExists s2 nm ver = true ∧
    (∃ p, tr = p ++ [Ev.writeIndex] ∧ Ev.writeIndex ∉ p ∧
      Ev.writeMetadata nm ver ∈ p ∧
      (Ev.copyFile nm ver ∈ p ∨ Ev.copyTree nm ver ∈ p)) := by
  unfold registerCopy registerCopyDir at h
  repeat' split at h
  all_goals try (rw [Prod.mk.injEq, Prod.mk.injEq] at h
                 exact Except.noConfusion h.1)
  all_goals (
    obtain ⟨hm, hidx, hfiles, htr⟩ :=
      finishRegister_ok_char _ _ _ _ _ _ _ _ _ h
    subst hm
    simp only [files_withArt, index_withArt] at hidx hfiles
    refine ⟨hidx.trans rfl, ?_, ?_, ?_, ?_⟩
    · intro n2 v2 hp
      rw [hfiles]
      rw [alGet_withDir_ne _ _ _ _ _ _ hp]
      repeat rw [alGet_withDir_ne _ _ _ _ _ _ hp]
      exact alGet_ensureDir_ne _ _ _ _ _ hp
    · refine dirExists_of_files _ _ _ _ _ hfiles ?_
      repeat apply isSome_alGet_withDir
      exact isSome_alGet_ensureDir_self _ _ _
    · refine metadataExists_of_files_store _ _ _ _ _ hfiles ?_
      repeat apply isSome_alGet_withDir
      exact isSome_alGet_ensureDir_self _ _ _
    · rw [htr]
      exact pubSplit _ nm ver (by simp) (by simp))

theorem register_model_eq_core (s : RegState) (fa : Faults)
    (src : SourcePath) (nm : String) (verOpt : Option String)
    (genV desc : String) (md : List (String × Value)) (now : String) :
    register_model s fa src nm verOpt genV desc md now =
      registerCore s fa src nm (verOpt.getD genV) desc md now := rfl

theorem registerCore_error_char (s : RegState) (fa : Faults)
    (src : SourcePath) (nm ver desc : String) (md : List (String × Value))
    (now : String) (e : String) (s2 : RegState) (tr : List Ev)
    (h : registerCore s fa src nm ver desc md now = (Except.error e, s2, tr)) :
    s2.index = s.index ∧ Ev.writeIndex ∉ tr := by
  unfold registerCore at h
  cases happ : applyUpdates (mkDefault nm ver desc now) md with
  | error e2 =>
    rw [happ] at h
    have h2 : (Except.error e2, s, ([] : List Ev)) =
        ((Except.error e : Except String ModelMetadata), s2, tr) := h
    rw [Prod.mk.injEq, Prod.mk.injEq] at h2
    obtain ⟨_, h2, h3⟩ := h2
    exact ⟨by rw [← h2], by rw [← h3]; simp⟩
  | ok m1 =>
    rw [happ] at h
    exact registerCopy_error_char _ _ _ _ _ _ _ _ _ h

theorem registerCore_ok_char (s : RegState) (fa : Faults)
    (src : SourcePath) (nm ver desc : String) (md : List (String × Value))
    (now : String) (m2 : ModelMetadata) (s2 : RegState) (tr : List Ev)
    (h : registerCore s fa src nm ver desc md now = (Except.ok m2, s2, tr)) :
    s2.index = updateIndex s.index nm ver (entryOf m2) ∧
    (∀ n2 v2, (n2, v2) ≠ (nm, ver) →
      alGet s2.files (n2, v2) = alGet s.files (n2, v2)) ∧
    dirExists s2 nm ver = true ∧
    metadataExists s2 nm ver = true ∧
    (∃ p, tr = p ++ [Ev.writeIndex] ∧ Ev.writeIndex ∉ p ∧
      Ev.writeMetadata nm ver ∈ p ∧
      (Ev.copyFile nm ver ∈ p ∨ Ev.copyTree nm ver ∈ p)) := by
  unfold registerCore at h
  cases happ : applyUpdates (mkDefault nm ver desc now) md with
  | error e2 =>
    rw [happ] at h
    have h2 : (Except.error e2, s, ([] : List Ev)) =
        ((Except.ok m2 : Except String ModelMetadata), s2, tr) := h
    rw [Prod.mk.injEq] at h2
    exact Except.noConfusion h2.1
  | ok m1 =>
    rw [happ] at h
    exact registerCopy_ok_char _ _ _ _ _ _ _ _ _ h

theorem update_char (s : RegState) (nm ver : String)
    (upd : List (String × Value)) (now : String) :
    (update_model_metadata s nm ver upd now).snd.fst = s ∨
    (∃ m0 m1, readMeta s nm ver = Except.ok m0 ∧
      applyUpdates m0 upd = Except.ok m1 ∧
      update_model_metadata s nm ver upd now =
        (Except.ok { m1 with updated_at := Value.vStr now },
         { index := updateIndex s.index nm ver
             (entryOf { m1 with updated_at := Value.vStr now }),
           files := withDir s.files nm ver
             (fun d =>
               { d with
                 meta := MetaFile.stored
                   (storedOf { m1 with updated_at := Value.vStr now }) }) },
         [Ev.writeMetadata nm ver, Ev.writeIndex])) := by
  cases hread : readMeta s nm ver with
  | error e =>
    have hu : update_model_metadata s nm ver upd now =
        (Except.error e, s, []) := by
      unfold update_model_metadata
      rw [hread]
    exact Or.inl (by rw [hu])
  | ok m0 =>
    have hu : update_model_metadata s nm ver upd now =
        updateApply s nm ver m0 upd now := by
      unfold update_model_metadata
      rw [hread]
    cases happ : applyUpdates m0 upd with
    | error e =>
      have hu2 : updateApply s nm ver m0 upd now = (Except.error e, s, []) := by
        unfold updateApply
        rw [happ]
      exact Or.inl (by rw [hu, hu2])
    | ok m1 =>
      refine Or.inr ⟨m0, m1, rfl, happ, ?_⟩
      rw [hu]
      unfold updateApply
      rw [happ]

theorem delete_absent_char (s : RegState) (nm ver : String)
    (h : indexHas s nm ver = false) :
    delete_model s nm (some ver) = (false, s, []) := by
  unfold delete_model
  cases hidx : alGet s.index nm with
  | none => rfl
  | some vl =>
    have hvl : (alGet vl ver).isSome = false := by
      unfold indexHas idxGet at h
      rw [hidx] at h
      exact h
    simp [hvl]

theorem delete_some_char (s : RegState) (nm ver : String)
    (vl : List (String × IndexEntry)) (hidx : alGet s.index nm = some vl)
    (hver : (alGet vl ver).isSome = true) :
    delete_model s nm (some ver) =
      (true,
       { index :=
           if (alErase vl ver).isEmpty then
             alErase (deleteVersionDir s nm ver).fst.index nm
           else alInsert (deleteVersionDir s nm ver).fst.index nm
             (alErase vl ver),
         files := (deleteVersionDir s nm ver).fst.files },
       (deleteVersionDir s nm ver).snd ++ [Ev.writeIndex]) := by
  simp [delete_model, hidx, hver]

theorem delete_all_char (s : RegState) (nm : String)
    (vl : List (String × IndexEntry)) (hidx : alGet s.index nm = some vl) :
    delete_model s nm none =
      (true,
       { index :=
           alErase (deleteAllVersions s nm (vl.map Prod.fst)).fst.index nm,
         files := (deleteAllVersions s nm (vl.map Prod.fst)).fst.files },
       (deleteAllVersions s nm (vl.map Prod.fst)).snd ++ [Ev.writeIndex]) := by
  simp [delete_model, hidx]

theorem delete_noname_char (s : RegState) (nm : String)
    (verOpt : Option String) (hidx : alGet s.index nm = none) :
    delete_model s nm verOpt = (false, s, []) := by
  unfold delete_model
  rw [hidx]

theorem registerCore_nofault_error_state (s : RegState) (src : SourcePath)
    (nm ver desc : String) (md : List (String × Value)) (now : String)
    (e : String) (s2 : RegState) (tr : List Ev)
    (hsrc : src ≠ SourcePath.missing)
    (h : registerCore s noFaults src nm ver desc md now =
      (Except.error e, s2, tr)) :
    s2 = s := by
  unfold registerCore registerCopy registerCopyDir finishRegister at h
  repeat' split at h
  all_goals rw [Prod.mk.injEq, Prod.mk.injEq] at h
  all_goals obtain ⟨h1, h2, h3⟩ := h
  all_goals first
    | exact Except.noConfusion h1
    | exact absurd rfl hsrc
    | exact h2.symm
    | (simp_all [noFaults]; done)
    | skip
  rename_i fname size heq hfn
  cases halg : alGet s.files (nm, ver) with
  | none =>
    exfalso
    unfold ensureDir at heq
    rw [halg] at heq
    rw [alGet_insert_self] at heq
    simp at heq
  | some d =>
    rw [ensureDir_of_isSome s.files nm ver (by rw [halg]; rfl)] at h2
    rw [← h2]

/-! ## Invariant preservation -/

theorem regInv_register (s : RegState) (src : SourcePath)
    (nm ver desc : String) (md : List (String × Value)) (now : String)
    (hsrc : src ≠ SourcePath.missing) (hInv : RegInv s) :
    RegInv (registerCore s noFaults src nm ver desc md now).snd.fst := by
  rcases hout : registerCore s noFaults src nm ver desc md now with ⟨r, s2, tr⟩
  cases r with
  | error e =>
    have hs :=
      registerCore_nofault_error_state s src nm ver desc md now e s2 tr
        hsrc hout
    simpa [hs] using hInv
  | ok m2 =>
    obtain ⟨hidx, hne, hdir, hmeta, _⟩ :=
      registerCore_ok_char s noFaults src nm ver desc md now m2 s2 tr hout
    show RegInv s2
    intro n2 v2
    by_cases hp : (n2, v2) = (nm, ver)
    · injection hp with hp1 hp2
      subst hp1
      subst hp2
      have hih : indexHas s2 n2 v2 = true := by
        unfold indexHas
        rw [hidx, idxGet_updateIndex]
        simp
      simp [hih, hdir, hmeta]
    · have h1 : indexHas s2 n2 v2 = indexHas s n2 v2 := by
        unfold indexHas
        rw [hidx, idxGet_updateIndex]
        by_cases hn : n2 = nm
        · have hv : ¬ v2 = ver := fun hv => hp (by rw [hn, hv])
          rw [if_pos hn, if_neg hv, hn]
        · rw [if_neg hn]
      have h2 : dirExists s2 n2 v2 = dirExists s n2 v2 := by
        unfold dirExists
        rw [hne n2 v2 hp]
      have h3 : metadataExists s2 n2 v2 = metadataExists s n2 v2 := by
        unfold metadataExists
        rw [hne n2 v2 hp]
      rw [h1, h2, h3]
      exact hInv n2 v2

theorem readMeta_isSome (s : RegState) (nm ver : String) (m0 : ModelMetadata)
    (h : readMeta s nm ver = Except.ok m0) :
    (alGet s.files (nm, ver)).isSome = true := by
  unfold readMeta at h
  cases halg : alGet s.files (nm, ver) with
  | none => rw [halg] at h; injection h
  | some d => simp

theorem update_ok_facts (s : RegState) (nm ver : String)
    (upd : List (String × Value)) (now : String) (m0 m1 : ModelMetadata)
    (hread : readMeta s nm ver = Except.ok m0)
    (happ : applyUpdates m0 upd = Except.ok m1) :
    (update_model_metadata s nm ver upd now).snd.fst.index =
      updateIndex s.index nm ver
        (entryOf { m1 with updated_at := Value.vStr now }) ∧
    (∀ n2 v2, (n2, v2) ≠ (nm, ver) →
      alGet (update_model_metadata s nm ver upd now).snd.fst.files (n2, v2) =
        alGet s.files (n2, v2)) ∧
    dirExists (update_model_metadata s nm ver upd now).snd.fst nm ver = true ∧
    metadataExists (update_model_metadata s nm ver upd now).snd.fst nm ver =
      true := by
  have hsome := readMeta_isSome s nm ver m0 hread
  have hu : update_model_metadata s nm ver upd now =
      (Except.ok { m1 with updated_at := Value.vStr now },
       { index := updateIndex s.index nm ver
           (entryOf { m1 with updated_at := Value.vStr now }),
         files := withDir s.files nm ver
           (fun d =>
             { d with
               meta := MetaFile.stored
                 (storedOf { m1 with updated_at := Value.vStr now }) }) },
       [Ev.writeMetadata nm ver, Ev.writeIndex]) := by
    have hu1 : update_model_metadata s nm ver upd now =
        updateApply s nm ver m0 upd now := by
      unfold update_model_metadata
      rw [hread]
    rw [hu1]
    unfold updateApply
    rw [happ]
  rw [hu]
  refine ⟨rfl, ?_, ?_, ?_⟩
  · intro n2 v2 hp
    exact alGet_withDir_ne s.files nm ver _ n2 v2 hp
  · exact dirExists_of_files _ s.files nm ver _ rfl hsome
  · exact metadataExists_of_files_store _ s.files nm ver _ rfl hsome

theorem regInv_update (s : RegState) (nm ver : String)
    (upd : List (String × Value)) (now : String) (hInv : RegInv s) :
    RegInv (update_model_metadata s nm ver upd now).snd.fst := by
  rcases update_char s nm ver upd now with heq | ⟨m0, m1, hread, happ, heq⟩
  · rw [heq]
    exact hInv
  · obtain ⟨hidx, hne, hdir, hmeta⟩ :=
      update_ok_facts s nm ver upd now m0 m1 hread happ
    intro n2 v2
    by_cases hp : (n2, v2) = (nm, ver)
    · injection hp with hp1 hp2
      rw [hp1, hp2]
      have hih : indexHas (update_model_metadata s nm ver upd now).snd.fst
          nm ver = true := by
        unfold indexHas
        rw [hidx, idxGet_updateIndex]
        simp
      simp [hih, hdir, hmeta]
    · have h1 : indexHas (update_model_metadata s nm ver upd now).snd.fst
          n2 v2 = indexHas s n2 v2 := by
        unfold indexHas
        rw [hidx, idxGet_updateIndex]
        by_cases hn : n2 = nm
        · have hv : ¬ v2 = ver := fun hv => hp (by rw [hn, hv])
          rw [if_pos hn, if_neg hv, hn]
        · rw [if_neg hn]
      have h2 : dirExists (update_model_metadata s nm ver upd now).snd.fst
          n2 v2 = dirExists s n2 v2 := by
        unfold dirExists
        rw [hne n2 v2 hp]
      have h3 : metadataExists (update_model_metadata s nm ver upd now).snd.fst
          n2 v2 = metadataExists s n2 v2 := by
        unfold metadataExists
        rw [hne n2 v2 hp]
      rw [h1, h2, h3]
      exact hInv n2 v2

theorem alGet_eq_none_of_not_mem {α β : Type} [DecidableEq α]
    {l : List (α × β)} {a : α} (h : a ∉ l.map Prod.fst) :
    alGet l a = none := by
  cases hg : alGet l a with
  | none => rfl
  | some b => exact absurd (mem_keys_of_alGet hg) h

theorem idxGet_erase_name (idx : Index) (nm v2 : String) :
    idxGet (alErase idx nm) nm v2 = none := by
  unfold idxGet
  rw [alGet_erase_self]

theorem idxGet_erase_name_ne (idx : Index) (nm n2 v2 : String)
    (h : n2 ≠ nm) :
    idxGet (alErase idx nm) n2 v2 = idxGet idx n2 v2 := by
  unfold idxGet
  rw [alGet_erase_ne _ _ _ h]

theorem idxGet_insert_name (idx : Index) (nm : String)
    (vl2 : List (String × IndexEntry)) (n2 v2 : String) :
    idxGet (alInsert idx nm vl2) n2 v2 =
      if n2 = nm then alGet vl2 v2 else idxGet idx n2 v2 := by
  unfold idxGet
  by_cases hn : n2 = nm
  · subst hn
    rw [alGet_insert_self, if_pos rfl]
  · rw [alGet_insert_ne _ _ _ _ hn, if_neg hn]

theorem regInv_delete (s : RegState) (nm : String) (verOpt : Option String)
    (hInv : RegInv s) :
    RegInv (delete_model s nm verOpt).snd.fst := by
  cases hidx : alGet s.index nm with
  | none =>
    rw [delete_noname_char s nm verOpt hidx]
    exact hInv
  | some vl =>
    cases verOpt with
    | none =>
      rw [delete_all_char s nm vl hidx]
      intro n2 v2
      unfold indexHas dirExists metadataExists
      simp only [index_deleteAllVersions, alGet_deleteAllVersions]
      by_cases hn : n2 = nm
      · subst hn
        rw [idxGet_erase_name]
        by_cases hv : v2 ∈ vl.map Prod.fst
        · simp [hv]
        · have hvl : alGet vl v2 = none := alGet_eq_none_of_not_mem hv
          have hIH := hInv n2 v2
          have hihs : indexHas s n2 v2 = false := by
            simp [indexHas, idxGet, hidx, hvl]
          have hdir : dirExists s n2 v2 = false := by
            cases hd : dirExists s n2 v2
            · rfl
            · exact absurd (hihs ▸ (hIH.1.mpr hd)) (by simp)
          have hmeta : metadataExists s n2 v2 = false := by
            cases hm : metadataExists s n2 v2
            · rfl
            · exact absurd (hihs ▸ (hIH.2.mpr hm)) (by simp)
          unfold dirExists at hdir
          unfold metadataExists at hmeta
          simp [hv, hdir, hmeta]
      · rw [idxGet_erase_name_ne _ _ _ _ hn]
        have hIH := hInv n2 v2
        unfold indexHas dirExists metadataExists at hIH
        simpa [hn] using hIH
    | some ver =>
      by_cases hver : (alGet vl ver).isSome = true
      · rw [delete_some_char s nm ver vl hidx hver]
        intro n2 v2
        unfold indexHas dirExists metadataExists
        simp only [index_deleteVersionDir, alGet_deleteVersionDir]
        by_cases hp : (n2, v2) = (nm, ver)
        · injection hp with hp1 hp2
          subst hp1
          subst hp2
          rw [if_pos rfl]
          by_cases hemp : (alErase vl v2).isEmpty
          · rw [if_pos hemp, idxGet_erase_name]
            simp
          · rw [if_neg hemp, idxGet_insert_name, if_pos rfl,
              alGet_erase_self]
            simp
        · rw [if_neg hp]
          by_cases hn : n2 = nm
          · have hv : ¬ v2 = ver := fun hv => hp (by rw [hn, hv])
            subst hn
            by_cases hemp : (alErase vl ver).isEmpty
            · rw [if_pos hemp, idxGet_erase_name]
              have hvl : alGet vl v2 = none := by
                refine alGet_of_erase_eq_nil vl ver ?_ v2 hv
                rwa [List.isEmpty_iff] at hemp
              have hIH := hInv n2 v2
              have hihs : indexHas s n2 v2 = false := by
                simp [indexHas, idxGet, hidx, hvl]
              have hdir : dirExists s n2 v2 = false := by
                cases hd : dirExists s n2 v2
                · rfl
                · exact absurd (hihs ▸ (hIH.1.mpr hd)) (by simp)
              have hmeta : metadataExists s n2 v2 = false := by
                cases hm : metadataExists s n2 v2
                · rfl
                · exact absurd (hihs ▸ (hIH.2.mpr hm)) (by simp)
              unfold dirExists at hdir
              unfold metadataExists at hmeta
              simp [hdir, hmeta]
            · rw [if_neg hemp, idxGet_insert_name, if_pos rfl,
                alGet_erase_ne _ _ _ hv]
              have hIH := hInv n2 v2
              simp only [indexHas, idxGet, dirExists, metadataExists,
                hidx] at hIH
              exact hIH
          · have hIH := hInv n2 v2
            unfold indexHas dirExists metadataExists at hIH
            by_cases hemp : (alErase vl ver).isEmpty
            · rw [if_pos hemp, idxGet_erase_name_ne _ _ _ _ hn]
              exact hIH
            · rw [if_neg hemp, idxGet_insert_name, if_neg hn]
              exact hIH
      · have hf : indexHas s nm ver = false := by
          unfold indexHas idxGet
          rw [hidx]
          simpa using hver
        rw [delete_absent_char s nm ver hf]
        exact hInv

theorem regInv_init : RegInv initState := by
  intro n2 v2
  simp [indexHas, idxGet, dirExists, metadataExists, initState, alGet]

theorem regInv_applyOp (s : RegState) (op : Op) (hok : okOp op)
    (hInv : RegInv s) : RegInv (applyOp s op) := by
  cases op with
  | opRegister src nm verOpt genV desc md now =>
    exact regInv_register s src nm (verOpt.getD genV) desc md now hok hInv
  | opUpdate nm ver upd now => exact regInv_update s nm ver upd now hInv
  | opDelete nm verOpt => exact regInv_delete s nm verOpt hInv

theorem regInv_foldl (ops : List Op) :
    ∀ s : RegState, RegInv s → (∀ op ∈ ops, okOp op) →
      RegInv (ops.foldl applyOp s) := by
  induction ops with
  | nil =>
    intro s h _
    simpa using h
  | cons op rest ih =>
    intro s h hops
    rw [List.foldl_cons]
    exact ih (applyOp s op) (regInv_applyOp s op (hops op (by simp)) h)
      (fun o ho => hops o (by simp [ho]))

theorem register_missing_facts (s : RegState) (nm ver desc now : String)
    (e : String) (s2 : RegState) (tr : List Ev)
    (h : registerCore s noFaults SourcePath.missing nm ver desc [] now =
      (Except.error e, s2, tr)) :
    dirExists s2 nm ver = true ∧ s2.index = s.index ∧
    (alGet s.files (nm, ver) = none → metadataExists s2 nm ver = false) := by
  have h2 : ((Except.error ("Model path does not exist") :
      Except String ModelMetadata),
      ({ s with files := ensureDir s.files nm ver } : RegState),
      [Ev.makedirs nm ver]) = (Except.error e, s2, tr) := h
  rw [Prod.mk.injEq, Prod.mk.injEq] at h2
  obtain ⟨_, h2, _⟩ := h2
  refine ⟨?_, by rw [← h2], ?_⟩
  · unfold dirExists
    rw [← h2]
    exact isSome_alGet_ensureDir_self s.files nm ver
  · intro hnone
    unfold metadataExists
    rw [← h2]
    show (match alGet (ensureDir s.files nm ver) (nm, ver) with
      | some d =>
        match d.meta with
        | MetaFile.absent => false
        | _ => true
      | none => false) = false
    unfold ensureDir
    rw [hnone, alGet_insert_self]

/-! ## Claims -/

/-- C1 (counterexample): a `register_model` call whose source path does not
exist raises `ValueError` but has already created the version's artifact
directory, so the state it leaves has an artifact directory for
`("m", "1")` with no metadata record and no index entry — only some of the
three exist, contradicting the claim that no operation (including a failed
`register_model`) leaves such a state. -/
theorem C1_invariant_cex :
    (register_model initState noFaults SourcePath.missing "m" (some ("1"))
      "gen" "" [] "t0").fst = Except.error ("Model path does not exist") ∧
    dirExists (register_model initState noFaults SourcePath.missing "m"
      (some ("1")) "gen" "" [] "t0").snd.fst "m" "1" = true ∧
    indexHas (register_model initState noFaults SourcePath.missing "m"
      (some ("1")) "gen" "" [] "t0").snd.fst "m" "1" = false ∧
    metadataExists (register_model initState noFaults SourcePath.missing "m"
      (some ("1")) "gen" "" [] "t0").snd.fst "m" "1" = false :=
  ⟨rfl, rfl, rfl, rfl⟩

/-- C1 (amended): the three-way existence invariant — an index entry exists
for (name, version) iff the artifact directory exists iff the metadata record
exists — holds in every state reachable from a fresh storage root by public
registry operations in which each `register_model` call is given an existing
source path (and no I/O faults are injected); moreover a `register_model`
call with a nonexistent source path (and empty extra metadata) leaves the
index unchanged and the version's artifact directory existing, without a
metadata record when the directory was freshly created — so the invariant
does not survive such a failed call. -/
theorem C1_invariant_amended :
    (∀ ops : List Op, (∀ op ∈ ops, okOp op) →
      RegInv (List.foldl applyOp initState ops)) ∧
    (∀ (s : RegState) (nm ver desc now e : String) (s2 : RegState)
        (tr : List Ev),
      registerCore s noFaults SourcePath.missing nm ver desc [] now =
        (Except.error e, s2, tr) →
      dirExists s2 nm ver = true ∧ s2.index = s.index ∧
      (alGet s.files (nm, ver) = none → metadataExists s2 nm ver = false)) :=
  ⟨fun ops hops => regInv_foldl ops initState regInv_init hops,
   fun s nm ver desc now e s2 tr h =>
     register_missing_facts s nm ver desc now e s2 tr h⟩

/-- C1 (witness for the amended theorem): instantiated on the operation
sequence [register m/1 from a file, delete everything of m] and on a failed
registration from a fresh root. -/
theorem C1_invariant_amended_witness :
    RegInv (List.foldl applyOp initState
      [Op.opRegister (SourcePath.srcFile "w.bin" 4) "m" (some ("1")) "gen" ""
        [] "t0",
       Op.opDelete "m" none]) ∧
    dirExists (registerCore initState noFaults SourcePath.missing "m" "1" ""
      [] "t0").snd.fst "m" "1" = true := by
  constructor
  · refine C1_invariant_amended.1 _ ?_
    intro op hop
    rcases List.mem_cons.mp hop with rfl | hop2
    · simp [okOp]
    · rcases List.mem_cons.mp hop2 with rfl | hop3
      · simp [okOp]
      · simp at hop3
  · exact (C1_invariant_amended.2 initState "m" "1" "" "t0"
      ("Model path does not exist")
      (registerCore initState noFaults SourcePath.missing "m" "1" "" []
        "t0").snd.fst
      (registerCore initState noFaults SourcePath.missing "m" "1" "" []
        "t0").snd.snd rfl).1

/-- C2: in every `register_model` run that returns successfully, the trace
ends with the single index publication, preceded by the artifact copy and the
metadata write; and in every failing run the index is unchanged and never
written, so the version is observably not-yet-registered. -/
theorem C2_publish_order (s : RegState) (fa : Faults) (src : SourcePath)
    (nm : String) (verOpt : Option String) (genV desc : String)
    (md : List (String × Value)) (now : String) :
    (∀ m2 s2 tr, register_model s fa src nm verOpt genV desc md now =
        (Except.ok m2, s2, tr) →
      ∃ p, tr = p ++ [Ev.writeIndex] ∧ Ev.writeIndex ∉ p ∧
        Ev.writeMetadata nm (verOpt.getD genV) ∈ p ∧
        (Ev.copyFile nm (verOpt.getD genV) ∈ p ∨
          Ev.copyTree nm (verOpt.getD genV) ∈ p)) ∧
    (∀ e s2 tr, register_model s fa src nm verOpt genV desc md now =
        (Except.error e, s2, tr) →
      s2.index = s.index ∧ Ev.writeIndex ∉ tr) := by
  constructor
  · intro m2 s2 tr h
    exact (registerCore_ok_char s fa src nm (verOpt.getD genV) desc md now
      m2 s2 tr h).2.2.2.2
  · intro e s2 tr h
    exact registerCore_error_char s fa src nm (verOpt.getD genV) desc md now
      e s2 tr h

/-- C2 (witness): instantiated on a successful registration from a fresh
root and on a failed one with a nonexistent source. -/
theorem C2_publish_order_witness :
    (∃ p, sampleReg.snd.snd = p ++ [Ev.writeIndex] ∧ Ev.writeIndex ∉ p ∧
      Ev.writeMetadata "m" "1" ∈ p ∧
      (Ev.copyFile "m" "1" ∈ p ∨ Ev.copyTree "m" "1" ∈ p)) ∧
    (register_model initState noFaults SourcePath.missing "m" (some ("1"))
      "gen" "" [] "t0").snd.fst.index = initState.index := by
  constructor
  · exact (C2_publish_order initState noFaults (SourcePath.srcFile "w.bin" 4)
      "m" (some ("1")) "gen" "" [] "2024-01-01T00:00:00").1 sampleMeta
      sReg sampleReg.snd.snd rfl
  · exact ((C2_publish_order initState noFaults SourcePath.missing "m"
      (some ("1")) "gen" "" [] "t0").2 ("Model path does not exist")
      (register_model initState noFaults SourcePath.missing "m" (some ("1"))
        "gen" "" [] "t0").snd.fst
      (register_model initState noFaults SourcePath.missing "m" (some ("1"))
        "gen" "" [] "t0").snd.snd rfl).1

theorem readMeta_after_store (s2 : RegState)
    (fs : List ((String × String) × VersionDir)) (nm ver : String)
    (m : ModelMetadata)
    (hfiles : s2.files =
      withDir fs nm ver (fun d => { d with meta := MetaFile.stored m }))
    (hs : (alGet fs (nm, ver)).isSome = true) :
    readMeta s2 nm ver = Except.ok m := by
  unfold readMeta
  rw [hfiles, alGet_withDir_self]
  cases h0 : alGet fs (nm, ver) with
  | none => rw [h0] at hs; simp at hs
  | some d => rfl

/-- C3 (counterexample): deleting the registered version ("m", "1") from the
sample state emits the trace [recursive delete of the version directory —
which contains the metadata record — then the index write]: the index entry
is removed last, not first as the claim states. -/
theorem C3_delete_order_cex :
    (delete_model sReg "m" (some ("1"))).snd.snd =
      [Ev.rmtreeDir "m" "1", Ev.writeIndex] ∧
    specDeleteIndexFirst (delete_model sReg "m" (some ("1"))).snd.snd =
      false :=
  ⟨rfl, rfl⟩

/-- C3 (amended): for every state in which (name, version) is in the index
and its artifact directory exists, delete_model with an explicit version
removes the artifact directory (with the metadata record inside it) first,
by one recursive delete, and removes the index entry last — the same
direction as registration's artifacts-before-index ordering, not its mirror
image. -/
theorem C3_delete_order_amended (s : RegState) (nm ver : String)
    (vl : List (String × IndexEntry)) (hidx : alGet s.index nm = some vl)
    (hver : (alGet vl ver).isSome = true)
    (hdir : dirExists s nm ver = true) :
    (delete_model s nm (some ver)).snd.snd =
      [Ev.rmtreeDir nm ver, Ev.writeIndex] := by
  have hdvd : (deleteVersionDir s nm ver).snd = [Ev.rmtreeDir nm ver] := by
    unfold dirExists at hdir
    unfold deleteVersionDir
    cases halg : alGet s.files (nm, ver) with
    | none => rw [halg] at hdir; simp at hdir
    | some d => rfl
  rw [delete_some_char s nm ver vl hidx hver]
  show (deleteVersionDir s nm ver).snd ++ [Ev.writeIndex] = _
  rw [hdvd]
  rfl

/-- C3 (witness for the amended theorem): on the sample registered state. -/
theorem C3_delete_order_amended_witness :
    (delete_model sReg "m" (some ("1"))).snd.snd =
      [Ev.rmtreeDir "m" "1", Ev.writeIndex] :=
  C3_delete_order_amended sReg "m" "1" [("1", entryOf sampleMeta)] rfl rfl
    rfl

/-- C4 (counterexample): with two versions "a" and "b" carrying the same
created_at, inserted into the index in that order, list_versions returns
["a", "b"] — insertion order — while the claimed descending-lex tie-break
requires "b" before "a". -/
theorem C4_list_versions_cex :
    list_versions sTie "m" = Except.ok ["a", "b"] ∧
    specTieBreakSorted (createdKey tieVl) ["a", "b"] = false := by
  constructor
  · rfl
  · rfl

/-- C4 (amended): list_versions returns a permutation of the name's index
keys ordered by created_at descending, and any two versions with equal
created_at appear in their index (insertion) order — Python's stable sort —
not in descending lexicographic order of the version string; the order is
still deterministic given the index contents. -/
theorem C4_list_versions_amended (s : RegState) (nm : String)
    (vl : List (String × IndexEntry)) (h : alGet s.index nm = some vl) :
    ∃ out, list_versions s nm = Except.ok out ∧
      out.Perm (vl.map Prod.fst) ∧
      out.Pairwise (fun a b => strLe (createdKey vl b) (createdKey vl a) = true) ∧
      (∀ c, out.filter (fun v => createdKey vl v == c) =
        (vl.map Prod.fst).filter (fun v => createdKey vl v == c)) := by
  refine ⟨sortByDesc (createdKey vl) (vl.map Prod.fst), ?_, ?_, ?_, ?_⟩
  · unfold list_versions
    rw [h]
  · exact sortByDesc_perm _ _
  · exact sortByDesc_pairwise _ _
  · intro c
    exact sortByDesc_filter_key _ _ _

/-- C4 (witness for the amended theorem): on the tied fixture. -/
theorem C4_list_versions_amended_witness :
    ∃ out, list_versions sTie "m" = Except.ok out ∧
      out.Perm (tieVl.map Prod.fst) ∧
      out.Pairwise (fun a b => strLe (createdKey tieVl b) (createdKey tieVl a) = true) ∧
      (∀ c, out.filter (fun v => createdKey tieVl v == c) =
        (tieVl.map Prod.fst).filter (fun v => createdKey tieVl v == c)) :=
  C4_list_versions_amended sTie "m" tieVl rfl

/-- C5 (counterexample): update_model_metadata with an updates mapping that
contains the key "created_at" overwrites created_at (hasattr is true for it,
so setattr fires): after registering at 2024-01-01 and updating with
created_at := "1999", the stored record's created_at is "1999" — the claim
that update_model_metadata never changes created_at for any updates mapping
is false. -/
theorem C5_created_at_cex :
    storedCreatedAt sReg "m" "1" =
      some (Value.vStr ("2024-01-01T00:00:00")) ∧
    storedCreatedAt (update_model_metadata sReg "m" "1"
      [("created_at", Value.vStr ("1999"))] "t9").snd.fst "m" "1" =
      some (Value.vStr ("1999")) :=
  ⟨rfl, rfl⟩

/-- C5 (amended): update_model_metadata preserves created_at — both in the
record it returns and in the record it stores — provided "created_at" is not
among the keys of the updates mapping. -/
theorem C5_created_at_amended (s : RegState) (nm ver : String)
    (upd : List (String × Value)) (now : String) (m0 m2 : ModelMetadata)
    (hread : readMeta s nm ver = Except.ok m0)
    (hkeys : "created_at" ∉ upd.map Prod.fst)
    (hok : (update_model_metadata s nm ver upd now).fst = Except.ok m2) :
    m2.created_at = m0.created_at ∧
    storedCreatedAt (update_model_metadata s nm ver upd now).snd.fst nm ver =
      some m0.created_at := by
  have hu1 : update_model_metadata s nm ver upd now =
      updateApply s nm ver m0 upd now := by
    unfold update_model_metadata
    rw [hread]
  cases happ : applyUpdates m0 upd with
  | error e =>
    exfalso
    rw [hu1] at hok
    unfold updateApply at hok
    rw [happ] at hok
    exact Except.noConfusion hok
  | ok m1 =>
    have hu2 : updateApply s nm ver m0 upd now =
        (Except.ok { m1 with updated_at := Value.vStr now },
         { index := updateIndex s.index nm ver
             (entryOf { m1 with updated_at := Value.vStr now }),
           files := withDir s.files nm ver
             (fun d =>
               { d with
                 meta := MetaFile.stored
                   (storedOf { m1 with updated_at := Value.vStr now }) }) },
         [Ev.writeMetadata nm ver, Ev.writeIndex]) := by
      unfold updateApply
      rw [happ]
    have hca := applyUpdates_created_at upd m0 m1 hkeys happ
    have hm2 : m2 = { m1 with updated_at := Value.vStr now } := by
      rw [hu1, hu2] at hok
      have hok2 : (Except.ok { m1 with updated_at := Value.vStr now } :
          Except String ModelMetadata) = Except.ok m2 := hok
      injection hok2 with hok3
      exact hok3.symm
    constructor
    · rw [hm2]
      exact hca
    · unfold storedCreatedAt
      rw [hu1, hu2]
      rw [readMeta_after_store _ s.files nm ver _ rfl
        (readMeta_isSome s nm ver m0 hread)]
      show some (storedOf { m1 with updated_at := Value.vStr now }).created_at
        = some m0.created_at
      rw [show (storedOf { m1 with
        updated_at := Value.vStr now }).created_at = m1.created_at from rfl]
      rw [hca]

/-- C5 (witness for the amended theorem): a status-only update on the sample
state keeps created_at. -/
theorem C5_created_at_amended_witness :
    ({ storedOf sampleMeta with
        status := Value.vStr ("deployed"),
        updated_at := Value.vStr ("t9") } : ModelMetadata).created_at =
      (storedOf sampleMeta).created_at ∧
    storedCreatedAt (update_model_metadata sReg "m" "1"
      [("status", Value.vStr ("deployed"))] "t9").snd.fst "m" "1" =
      some (storedOf sampleMeta).created_at :=
  C5_created_at_amended sReg "m" "1" [("status", Value.vStr ("deployed"))]
    "t9" (storedOf sampleMeta)
    { storedOf sampleMeta with
      status := Value.vStr ("deployed"), updated_at := Value.vStr ("t9") }
    rfl (by simp) rfl

/-- C6 (counterexample): `_write_index` opens the index file for writing in
place and dumps JSON into it — the observable file states include the
truncated file, so the claimed write-to-temporary-file-then-atomic-rename
discipline, under which a reader never observes a truncated index, does not
hold. -/
theorem C6_write_index_cex :
    writeIndexObs [] = [FileObs.truncated, FileObs.content []] ∧
    ¬ atomicSaveDiscipline (writeIndexObs []) := by
  refine ⟨rfl, ?_⟩
  intro hA
  exact hA (by simp [writeIndexObs])

/-- C6 (amended): every save of the index opens the index file for writing in
place — truncating it — and then writes the complete serialized index; a
concurrent reader can therefore observe a truncated index, and the last
observable state is the complete serialized index. There is no temporary
file and no rename. -/
theorem C6_write_index_amended (idx : Index) :
    FileObs.truncated ∈ writeIndexObs idx ∧
    (writeIndexObs idx).getLast? = some (FileObs.content idx) ∧
    ¬ atomicSaveDiscipline (writeIndexObs idx) := by
  refine ⟨by simp [writeIndexObs], by simp [writeIndexObs], ?_⟩
  intro hA
  exact hA (by simp [writeIndexObs])

/-- C7: get_latest_version never raises: it returns none when the name is
absent from the index and when the name maps to zero versions, and otherwise
returns the first element of list_versions. -/
theorem C7_latest_version (s : RegState) (nm : String) :
    (alGet s.index nm = none → get_latest_version s nm = none) ∧
    (alGet s.index nm = some [] → get_latest_version s nm = none) ∧
    (∀ vl, alGet s.index nm = some vl → vl ≠ [] →
      ∃ v vs, list_versions s nm = Except.ok (v :: vs) ∧
        get_latest_version s nm = some v) := by
  refine ⟨?_, ?_, ?_⟩
  · intro h
    unfold get_latest_version list_versions
    rw [h]
  · intro h
    unfold get_latest_version list_versions
    rw [h]
    rfl
  · intro vl h hne
    have hperm := sortByDesc_perm (createdKey vl) (vl.map Prod.fst)
    have hlen : sortByDesc (createdKey vl) (vl.map Prod.fst) ≠ [] := by
      intro hnil
      have hl := hperm.length_eq
      rw [hnil] at hl
      cases vl with
      | nil => exact hne rfl
      | cons a l => simp at hl
    cases hout : sortByDesc (createdKey vl) (vl.map Prod.fst) with
    | nil => exact absurd hout hlen
    | cons v vs =>
      refine ⟨v, vs, ?_, ?_⟩
      · unfold list_versions
        rw [h]
        show Except.ok (sortByDesc (createdKey vl) (vl.map Prod.fst)) =
          Except.ok (v :: vs)
        rw [hout]
      · unfold get_latest_version list_versions
        rw [h]
        show (sortByDesc (createdKey vl) (vl.map Prod.fst)).head? = some v
        rw [hout]
        rfl

/-- C7 (witness): on a fresh root the unknown name yields none; on the tied
fixture the head of list_versions is returned. -/
theorem C7_latest_version_witness :
    get_latest_version initState "m" = none ∧
    ∃ v vs, list_versions sTie "m" = Except.ok (v :: vs) ∧
      get_latest_version sTie "m" = some v :=
  ⟨(C7_latest_version initState "m").1 rfl,
   (C7_latest_version sTie "m").2.2 tieVl rfl (by simp [tieVl])⟩

theorem delete_some_post_absent (s : RegState) (nm ver : String)
    (vl : List (String × IndexEntry)) (hidx : alGet s.index nm = some vl)
    (hver : (alGet vl ver).isSome = true) :
    (delete_model s nm (some ver)).fst = true ∧
    indexHas (delete_model s nm (some ver)).snd.fst nm ver = false ∧
    dirExists (delete_model s nm (some ver)).snd.fst nm ver = false := by
  rw [delete_some_char s nm ver vl hidx hver]
  refine ⟨rfl, ?_, ?_⟩
  · show (idxGet
      (if (alErase vl ver).isEmpty then
        alErase (deleteVersionDir s nm ver).fst.index nm
      else alInsert (deleteVersionDir s nm ver).fst.index nm
        (alErase vl ver)) nm ver).isSome = false
    by_cases hemp : (alErase vl ver).isEmpty
    · rw [if_pos hemp, idxGet_erase_name]
      rfl
    · rw [if_neg hemp, idxGet_insert_name, if_pos rfl, alGet_erase_self]
      rfl
  · show (alGet (deleteVersionDir s nm ver).fst.files (nm, ver)).isSome =
      false
    rw [alGet_deleteVersionDir, if_pos rfl]
    rfl

/-- C8: for every state where (name, version) has an index entry, calling
delete_model(name, version) twice is idempotent: the first call returns true
and removes the index entry and the artifact directory; the second call
returns false ("not found") without raising and leaves the state unchanged;
after both calls neither the index entry nor the artifact directory
exists. -/
theorem C8_delete_idempotent (s : RegState) (nm ver : String)
    (h : indexHas s nm ver = true) :
    (delete_model s nm (some ver)).fst = true ∧
    indexHas (delete_model s nm (some ver)).snd.fst nm ver = false ∧
    dirExists (delete_model s nm (some ver)).snd.fst nm ver = false ∧
    (delete_model (delete_model s nm (some ver)).snd.fst nm
      (some ver)).fst = false ∧
    (delete_model (delete_model s nm (some ver)).snd.fst nm
      (some ver)).snd.fst = (delete_model s nm (some ver)).snd.fst ∧
    indexHas (delete_model (delete_model s nm (some ver)).snd.fst nm
      (some ver)).snd.fst nm ver = false ∧
    dirExists (delete_model (delete_model s nm (some ver)).snd.fst nm
      (some ver)).snd.fst nm ver = false := by
  have hvl : ∃ vl, alGet s.index nm = some vl ∧
      (alGet vl ver).isSome = true := by
    unfold indexHas idxGet at h
    cases hidx : alGet s.index nm with
    | none => rw [hidx] at h; simp at h
    | some vl =>
      rw [hidx] at h
      exact ⟨vl, rfl, h⟩
  obtain ⟨vl, hidx, hver⟩ := hvl
  obtain ⟨h1, h2, h3⟩ := delete_some_post_absent s nm ver vl hidx hver
  have habs := delete_absent_char (delete_model s nm (some ver)).snd.fst nm
    ver h2
  refine ⟨h1, h2, h3, ?_, ?_, ?_, ?_⟩
  · rw [habs]
  · rw [habs]
  · rw [habs]
    exact h2
  · rw [habs]
    exact h3

/-- C8 (witness): on the sample registered state. -/
theorem C8_delete_idempotent_witness :
    (delete_model sReg "m" (some ("1"))).fst = true ∧
    indexHas (delete_model sReg "m" (some ("1"))).snd.fst "m" "1" = false ∧
    dirExists (delete_model sReg "m" (some ("1"))).snd.fst "m" "1" = false ∧
    (delete_model (delete_model sReg "m" (some ("1"))).snd.fst "m"
      (some ("1"))).fst = false ∧
    (delete_model (delete_model sReg "m" (some ("1"))).snd.fst "m"
      (some ("1"))).snd.fst = (delete_model sReg "m" (some ("1"))).snd.fst ∧
    indexHas (delete_model (delete_model sReg "m" (some ("1"))).snd.fst "m"
      (some ("1"))).snd.fst "m" "1" = false ∧
    dirExists (delete_model (delete_model sReg "m" (some ("1"))).snd.fst "m"
      (some ("1"))).snd.fst "m" "1" = false :=
  C8_delete_idempotent sReg "m" "1" rfl

/-- C9: updating a registered version's status to "deployed" and reading the
metadata back yields a record with status "deployed", created_at unchanged
from registration, and updated_at stamped with the update-time clock reading;
when that reading is strictly later than created_at (which second- or
microsecond-granularity isoformat timestamps give whenever the clock has
advanced), updated_at is strictly later than created_at. -/
theorem C9_round_trip (s : RegState) (nm ver t1 t2 : String)
    (m0 : ModelMetadata) (hread : readMeta s nm ver = Except.ok m0)
    (hc : m0.created_at = Value.vStr t1) (hlt : strLt t1 t2 = true) :
    ∃ m2, readMeta (update_model_metadata s nm ver
        [("status", Value.vStr ("deployed"))] t2).snd.fst nm ver =
      Except.ok m2 ∧
      m2.status = Value.vStr ("deployed") ∧
      m2.created_at = Value.vStr t1 ∧
      m2.updated_at = Value.vStr t2 ∧ strLt t1 t2 = true := by
  have happ : applyUpdates m0 [("status", Value.vStr ("deployed"))] =
      Except.ok { m0 with status := Value.vStr ("deployed") } := rfl
  have hu1 : update_model_metadata s nm ver
      [("status", Value.vStr ("deployed"))] t2 =
      updateApply s nm ver m0 [("status", Value.vStr ("deployed"))] t2 := by
    unfold update_model_metadata
    rw [hread]
  have hu2 : updateApply s nm ver m0 [("status", Value.vStr ("deployed"))]
      t2 =
      (Except.ok
        { m0 with
          status := Value.vStr ("deployed"), updated_at := Value.vStr t2 },
       { index := updateIndex s.index nm ver
           (entryOf
             { m0 with
               status := Value.vStr ("deployed"),
               updated_at := Value.vStr t2 }),
         files := withDir s.files nm ver
           (fun d =>
             { d with
               meta := MetaFile.stored
                 (storedOf
                   { m0 with
                     status := Value.vStr ("deployed"),
                     updated_at := Value.vStr t2 }) }) },
       [Ev.writeMetadata nm ver, Ev.writeIndex]) := by
    unfold updateApply
    rw [happ]
  rw [hu1, hu2]
  refine ⟨storedOf
    { m0 with
      status := Value.vStr ("deployed"), updated_at := Value.vStr t2 },
    ?_, rfl, ?_, rfl, hlt⟩
  · exact readMeta_after_store _ s.files nm ver _ rfl
      (readMeta_isSome s nm ver m0 hread)
  · show m0.created_at = Value.vStr t1
    exact hc

/-- C9 (witness): on the sample registered state, with the update one day
after registration. -/
theorem C9_round_trip_witness :
    strLt "2024-01-01T00:00:00" "2024-01-02T00:00:00" = true ∧
    ∃ m2, readMeta (update_model_metadata sReg "m" "1"
        [("status", Value.vStr ("deployed"))]
        "2024-01-02T00:00:00").snd.fst "m" "1" =
      Except.ok m2 ∧
      m2.status = Value.vStr ("deployed") ∧
      m2.created_at = Value.vStr ("2024-01-01T00:00:00") ∧
      m2.updated_at = Value.vStr ("2024-01-02T00:00:00") ∧
      strLt "2024-01-01T00:00:00" "2024-01-02T00:00:00" = true :=
  ⟨rfl,
   C9_round_trip sReg "m" "1" "2024-01-01T00:00:00" "2024-01-02T00:00:00"
     (storedOf sampleMeta) rfl rfl rfl⟩

/-- C10: in the metadata merge shared by register_model and
update_model_metadata, a caller-supplied key is routed into the open-ended
custom mapping exactly when the ModelMetadata object has no attribute of that
name; since hasattr also sees the class's methods, a key equal to a method
name such as "to_dict" passes the attribute test and setattr stores it as an
instance attribute shadowing the method, instead of landing in custom. -/
theorem C10_merge_routing (m : ModelMetadata) (k : String) (v : Value)
    (kvs : List (String × Value)) (hc : m.custom = Value.vMap kvs) :
    (hasattrMM k = false →
      applyOne m (k, v) =
        Except.ok { m with custom := Value.vMap (alInsert kvs k v) }) ∧
    (hasattrMM k = true → k ≠ "custom" →
      ∀ m1, applyOne m (k, v) = Except.ok m1 → m1.custom = m.custom) ∧
    hasattrMM "to_dict" = true ∧
    mmFieldNames.contains "to_dict" = false ∧
    (∀ m1, applyOne m ("to_dict", v) = Except.ok m1 →
      m1.custom = m.custom ∧
      alGet m1.methodOverrides "to_dict" = some v) := by
  refine ⟨?_, ?_, rfl, rfl, ?_⟩
  · intro hh
    unfold applyOne
    rw [hc]
    simp [hh]
  · intro hh hk m1 h1
    unfold applyOne at h1
    rw [if_pos hh] at h1
    injection h1 with h2
    rw [← h2]
    exact setattrMM_custom m k v hk
  · intro m1 h1
    have heq : applyOne m ("to_dict", v) =
        Except.ok { m with
          methodOverrides := alInsert m.methodOverrides "to_dict" v } := rfl
    rw [heq] at h1
    injection h1 with h2
    rw [← h2]
    exact ⟨rfl, alGet_insert_self m.methodOverrides "to_dict" v⟩

/-- C10 (witness): on the default record, an unknown key "weights_url" lands
in custom, and key "to_dict" shadows the method instead. -/
theorem C10_merge_routing_witness :
    applyOne (mkDefault "m" "1" "" "t0")
        ("weights_url", Value.vStr ("u")) =
      Except.ok { mkDefault "m" "1" "" "t0" with
        custom := Value.vMap (alInsert [] "weights_url" (Value.vStr ("u"))) } ∧
    hasattrMM "to_dict" = true ∧
    ∀ m1, applyOne (mkDefault "m" "1" "" "t0")
        ("to_dict", Value.vStr ("u")) = Except.ok m1 →
      m1.custom = (mkDefault "m" "1" "" "t0").custom ∧
      alGet m1.methodOverrides "to_dict" = some (Value.vStr ("u")) :=
  ⟨(C10_merge_routing (mkDefault "m" "1" "" "t0") "weights_url"
      (Value.vStr ("u")) [] rfl).1 rfl,
   (C10_merge_routing (mkDefault "m" "1" "" "t0") "weights_url"
      (Value.vStr ("u")) [] rfl).2.2.1,
   (C10_merge_routing (mkDefault "m" "1" "" "t0") "to_dict"
      (Value.vStr ("u")) [] rfl).2.2.2.2⟩
